import Mathlib

/-!
Verification of the journal static-site builder (`build.py` /
`driftnotes/build.py`).  The content pipeline — month-file parsing, metadata
extraction, draft filtering, year/tag/calendar indexing, and the pure parts of
rendering — is embedded as executable Lean definitions over `List Char` /
`String`, mirroring the Python source line by line.  File-system walking,
YAML loading and the external `markdown` / `BeautifulSoup` libraries are
treated as parameters (a content tree is passed as data, markdown rendering as
an abstract `String → String` function).
-/

set_option maxHeartbeats 1000000

/-- Python whitespace characters (the default set of `str.strip`, and the ASCII
part of the regex class `\s`). -/
def pyWs (c : Char) : Bool :=
  c = ' ' || c = '\t' || c = '\n' || c = '\r' || c = '\x0b' || c = '\x0c'

/-- Drop characters satisfying `p` from both ends of a list, as Python
`str.strip` does with a character set. -/
def pyStripChars (p : Char → Bool) (l : List Char) : List Char :=
  ((l.dropWhile p).reverse.dropWhile p).reverse

/-- Embedding of Python `str.strip()` (no argument: strips whitespace). -/
def pyStrip (s : String) : String :=
  String.mk (pyStripChars pyWs s.data)

/-- Embedding of Python `str.lower()` (ASCII case folding; the journal
sources are ASCII where case matters). -/
def lowerStr (s : String) : String :=
  String.mk (s.data.map Char.toLower)

/-- Embedding of Python `s[n:]` character slicing. -/
def dropChars (s : String) (n : Nat) : String :=
  String.mk (s.data.drop n)

/-- `startsWithChars pat l` is true when `pat` is a leading run of `l`
(Python `str.startswith`). -/
def startsWithChars : List Char → List Char → Bool
  | [], _ => true
  | _ :: _, [] => false
  | p :: ps, c :: cs => p = c && startsWithChars ps cs

/-- Embedding of Python `s.startswith(pat)`. -/
def strStartsWith (s pat : String) : Bool :=
  startsWithChars pat.data s.data

/-- Split a character list at `'\n'` with Python `str.splitlines` semantics:
the empty string gives no lines and a trailing newline does not produce a
trailing empty line. -/
def splitLinesList : List Char → List (List Char)
  | [] => []
  | c :: cs =>
    if c = '\n' then [] :: splitLinesList cs
    else
      match splitLinesList cs with
      | [] => [[c]]
      | l :: ls => (c :: l) :: ls

/-- Embedding of Python `text.splitlines()` for `'\n'`-separated text (the
only line terminator the journal sources produce). -/
def splitLinesPy (s : String) : List String :=
  (splitLinesList s.data).map String.mk

/-- Join character lists with `'\n'` (Python `"\n".join`). -/
def joinLinesList : List (List Char) → List Char
  | [] => []
  | [l] => l
  | l :: ls => l ++ '\n' :: joinLinesList ls

/-- Embedding of Python `"\n".join(lines)`. -/
def joinLines (ls : List String) : String :=
  String.mk (joinLinesList (ls.map String.data))

/-- Embedding of Python `sep.join(parts)` for a general separator. -/
def joinWith (sep : String) : List String → String
  | [] => ""
  | [s] => s
  | s :: ss => s ++ sep ++ joinWith sep ss

/-- Split a character list on `','` with Python `str.split(",")` semantics
(empty pieces are kept; the empty string yields one empty piece). -/
def splitCommaList : List Char → List (List Char)
  | [] => [[]]
  | c :: cs =>
    let r := splitCommaList cs
    if c = ',' then [] :: r
    else
      match r with
      | [] => [[c]]
      | l :: ls => (c :: l) :: ls

/-- Matcher for the entry-heading regex
`^(#{2,6})\s+(\d{4}-\d{2}-\d{2})\s*$` (`ENTRY_HEADING_RE`): on success returns
the heading level (number of `#` markers) and the captured date string. -/
def headingMatch (line : String) : Option (Nat × String) :=
  let cs := line.data
  let hs := cs.takeWhile (fun c => c = '#')
  let rest := cs.dropWhile (fun c => c = '#')
  if 2 ≤ hs.length ∧ hs.length ≤ 6 then
    let ws := rest.takeWhile pyWs
    let rest2 := rest.dropWhile pyWs
    if ws.length = 0 then none
    else
      match rest2 with
      | y1 :: y2 :: y3 :: y4 :: h1 :: m1 :: m2 :: h2 :: d1 :: d2 :: tail =>
        if y1.isDigit ∧ y2.isDigit ∧ y3.isDigit ∧ y4.isDigit ∧ h1 = '-' ∧
            m1.isDigit ∧ m2.isDigit ∧ h2 = '-' ∧ d1.isDigit ∧ d2.isDigit ∧
            tail.all pyWs then
          some (hs.length, String.mk [y1, y2, y3, y4, '-', m1, m2, '-', d1, d2])
        else none
      | _ => none
  else none

/-- One record produced by `parse_month_file`: date string, heading level and
the raw (not yet metadata-stripped) body text. -/
structure RawEntry where
  date : String
  headingLevel : Nat
  contentMd : String
deriving DecidableEq, Repr

/-- The line loop of `parse_month_file`: `cur` is the open entry heading
(`current_level`, `current_date`), `acc` is `current_lines`.  As in the
Python, `current_lines` is only reset when an entry is flushed, so stray
non-title lines before the first heading end up in the first entry's body. -/
def parseAux : Option (Nat × String) → List String → List String → List RawEntry
  | none, _, [] => []
  | some (lvl, d), acc, [] => [⟨d, lvl, pyStrip (joinLines acc)⟩]
  | cur, acc, l :: rest =>
    match headingMatch l with
    | some (lvl, d) =>
      match cur with
      | none => parseAux (some (lvl, d)) acc rest
      | some (plvl, pd) =>
          ⟨pd, plvl, pyStrip (joinLines acc)⟩ :: parseAux (some (lvl, d)) [] rest
    | none =>
      match cur with
      | none =>
          if strStartsWith l "# " then parseAux none acc rest
          else parseAux none (acc ++ [l]) rest
      | some c => parseAux (some c) (acc ++ [l]) rest

/-- Embedding of `parse_month_file` (the file's text is passed instead of its
path; the Python reads the file and calls `splitlines`). -/
def parse_month_file (text : String) : List RawEntry :=
  parseAux none [] (splitLinesPy text)

/-- Result of `extract_meta`: the stripped body and the extracted
`tags` / `draft` metadata. -/
structure MetaResult where
  body : String
  tags : List String
  draft : Bool
deriving DecidableEq, Repr

/-- Embedding of the tags-line value parser:
`[t.strip() for t in tag_str.split(",") if t.strip()]`. -/
def parseTagStr (tagStr : String) : List String :=
  (((splitCommaList tagStr.data).map (fun l => pyStrip (String.mk l)))).filter
    (fun t => t ≠ "")

/-- The enumerated truthy set for `draft:` values. -/
def truthyDraft (v : String) : Bool :=
  v = "true" || v = "yes" || v = "1" || v = "y" || v = "on"

/-- The scanning loop of `extract_meta`.  Returns the relative `body_start`
produced by a `break` (`some 1` for a blank line, `some 0` for a non-metadata
line, shifted by one per consumed metadata line) or `none` when the loop runs
off the end (Python leaves `body_start = 0` in that case), together with the
final `tags` and `draft` values. -/
def scanMeta : List String → List String → Bool → Option Nat × List String × Bool
  | [], tags, draft => (none, tags, draft)
  | l :: rest, tags, draft =>
    let st := pyStrip l
    if st = "" then (some 1, tags, draft)
    else
      let lo := lowerStr st
      if strStartsWith lo "tags:" then
        let r := scanMeta rest (parseTagStr (pyStrip (dropChars st 5))) draft
        (r.1.map (· + 1), r.2)
      else if strStartsWith lo "draft:" then
        let r := scanMeta rest tags (truthyDraft (lowerStr (pyStrip (dropChars st 6))))
        (r.1.map (· + 1), r.2)
      else (some 0, tags, draft)

/-- Embedding of `extract_meta`, acting on the entry's `content_md` text. -/
def extract_meta (contentMd : String) : MetaResult :=
  let lines := splitLinesPy contentMd
  let r := scanMeta lines [] false
  ⟨pyStrip (joinLines (lines.drop (r.1.getD 0))), r.2.1, r.2.2⟩

example : parse_month_file "# Title\n## 2024-01-02\nHello\n\n### 2024-01-03\nBye" =
    [⟨"2024-01-02", 2, "Hello"⟩, ⟨"2024-01-03", 3, "Bye"⟩] := by decide

example : extract_meta "tags: a, b\ndraft: yes\nBody here" =
    ⟨"Body here", ["a", "b"], true⟩ := by decide

example : extract_meta "tags: a\n\ntags: b\nx" = ⟨"tags: b\nx", ["a"], false⟩ := by
  decide

/-- Gregorian leap-year test, as `datetime` applies it. -/
def isLeapYear (y : Nat) : Bool :=
  y % 4 = 0 && (y % 100 ≠ 0 || y % 400 = 0)

/-- Days in a month, as `datetime` validates day-of-month. -/
def daysInMonth (y m : Nat) : Nat :=
  if m = 2 then (if isLeapYear y then 29 else 28)
  else if m = 4 || m = 6 || m = 9 || m = 11 then 30 else 31

/-- Numeric value of an ASCII digit character. -/
def digitVal (c : Char) : Nat := c.toNat - 48

/-- Embedding of `datetime.strptime(s, "%Y-%m-%d")`: `none` models the
`ValueError` raised on a malformed or invalid calendar date. -/
def parseDateYmd (s : String) : Option (Nat × Nat × Nat) :=
  match s.data with
  | [a, b, c, d, h1, e, f, h2, g, k] =>
    if a.isDigit ∧ b.isDigit ∧ c.isDigit ∧ d.isDigit ∧ h1 = '-' ∧ e.isDigit ∧
        f.isDigit ∧ h2 = '-' ∧ g.isDigit ∧ k.isDigit then
      let y := ((digitVal a * 10 + digitVal b) * 10 + digitVal c) * 10 + digitVal d
      let mo := digitVal e * 10 + digitVal f
      let dd := digitVal g * 10 + digitVal k
      if 1 ≤ y ∧ 1 ≤ mo ∧ mo ≤ 12 ∧ 1 ≤ dd ∧ dd ≤ daysInMonth y mo then
        some (y, mo, dd)
      else none
    else none
  | _ => none

/-- A surviving journal entry after metadata extraction, with the year label
from the containing directory and the parsed date (`_dt`) broken into fields. -/
structure Entry where
  date : String
  headingLevel : Nat
  contentMd : String
  tags : List String
  draft : Bool
  year : String
  dtY : Nat
  dtM : Nat
  dtD : Nat
deriving DecidableEq, Repr

/-- Sorting key for an entry's `_dt` timestamp; for validated dates
(month ≤ 12, day ≤ 31) its order coincides with `datetime` comparison. -/
def dtKey (e : Entry) : Nat := (e.dtY * 100 + e.dtM) * 100 + e.dtD

/-- The per-file loop body of `collect_entries_by_year`: run `extract_meta`
on each parsed entry, skip drafts unless included, then parse the date
(`none` models the fatal `ValueError`).  Note the draft check precedes date
parsing, exactly as in the source. -/
def processMonthEntries (incl : Bool) (year : String) :
    List RawEntry → Option (List Entry)
  | [] => some []
  | r :: rest =>
    let m := extract_meta r.contentMd
    if m.draft && !incl then processMonthEntries incl year rest
    else
      match parseDateYmd r.date with
      | none => none
      | some (y, mo, dd) =>
        (processMonthEntries incl year rest).map
          (fun es => ⟨r.date, r.headingLevel, m.body, m.tags, m.draft, year, y, mo, dd⟩ :: es)

/-- Collect the surviving entries of one year directory; `files` are the
month files' texts in the sorted enumeration order of `sorted(year_dir.glob("*.md"))`. -/
def collectYearEntries (incl : Bool) (year : String) : List String → Option (List Entry)
  | [] => some []
  | f :: fs => do
    let a ← processMonthEntries incl year (parse_month_file f)
    let b ← collectYearEntries incl year fs
    pure (a ++ b)

/-- Stable insertion used to model Python `list.sort`: `x` goes in front of
the first element `y` with `le x y`, so earlier elements win ties. -/
def insertLeB (le : α → α → Bool) (x : α) : List α → List α
  | [] => [x]
  | y :: ys => if le x y then x :: y :: ys else y :: insertLeB le x ys

/-- Stable sort with respect to a boolean total preorder; for a total
preorder this computes the same list as Python's stable `list.sort`. -/
def sortLeB (le : α → α → Bool) : List α → List α
  | [] => []
  | x :: xs => insertLeB le x (sortLeB le xs)

/-- Embedding of `list.sort(key=..., reverse=rev)` for a `Nat`-valued key. -/
def pySortByKey (k : α → Nat) (rev : Bool) (l : List α) : List α :=
  sortLeB (fun a b => if rev then decide (k b ≤ k a) else decide (k a ≤ k b)) l

/-- Embedding of Python `str.isdigit` for directory names (ASCII digits). -/
def isDigitName (s : String) : Bool :=
  s ≠ "" && s.data.all Char.isDigit

/-- Embedding of `collect_entries_by_year`.  The content tree is passed as
data: the immediate subdirectories in `sorted(content_root.iterdir())` order,
each with its month files' texts in sorted order.  Non-digit directory names
are skipped; a year whose entries are all filtered out is omitted; `none`
models the fatal date-parse failure. -/
def collect_entries_by_year :
    List (String × List String) → String → Bool → Option (List (String × List Entry))
  | [], _, _ => some []
  | (name, files) :: rest, order, incl =>
    if isDigitName name then do
      let raw ← collectYearEntries incl name files
      let tail ← collect_entries_by_year rest order incl
      if raw.isEmpty then pure tail
      else pure ((name, pySortByKey dtKey (order == "reverse") raw) :: tail)
    else collect_entries_by_year rest order incl

/-- Characters matched by the regex class `[\s_]` in `slugify_tag`. -/
def isWsUnd (c : Char) : Bool := pyWs c || c = '_'

/-- Worker for `collapseRuns`; the flag records whether the previous
character was part of a run being collapsed. -/
def collapseRunsGo (p : Char → Bool) (repl : Char) : Bool → List Char → List Char
  | _, [] => []
  | prev, c :: cs =>
    if p c then
      (if prev then collapseRunsGo p repl true cs
       else repl :: collapseRunsGo p repl true cs)
    else c :: collapseRunsGo p repl false cs

/-- Replace each maximal run of characters satisfying `p` by the single
character `repl` (the effect of `re.sub(r"[\s_]+", "-", s)` and of
`re.sub(r"-{2,}", "-", s)` on their respective classes). -/
def collapseRuns (p : Char → Bool) (repl : Char) (l : List Char) : List Char :=
  collapseRunsGo p repl false l

/-- The character class `[a-z0-9-]` kept by `re.sub(r"[^a-z0-9-]", "", s)`. -/
def slugAllowed (c : Char) : Bool :=
  ('a' ≤ c && c ≤ 'z') || ('0' ≤ c && c ≤ '9') || c = '-'

/-- The normalisation pipeline of `slugify_tag` before the empty-string
fallback: strip, lowercase, collapse whitespace/underscore runs to hyphens,
drop disallowed characters, collapse repeated hyphens, strip hyphens. -/
def slugCore (tag : String) : String :=
  let s1 := (lowerStr (pyStrip tag)).data
  let s2 := collapseRuns isWsUnd '-' s1
  let s3 := s2.filter slugAllowed
  let s4 := pyStripChars (fun c => c = '-') (collapseRuns (fun c => c = '-') '-' s3)
  String.mk s4

/-- Embedding of `slugify_tag`, including the `or "tag"` fallback. -/
def slugify_tag (tag : String) : String :=
  let r := slugCore tag
  if r = "" then "tag" else r

/-- One bucket of the tag index: the first-seen display name and the
bucket's entries. -/
structure TagData where
  name : String
  entries : List Entry
deriving DecidableEq, Repr

/-- Insertion-ordered dict update used by `build_tag_index`: an existing slug
keeps its display name and gets `e` appended; a new slug is appended at the
end with `tag` as display name. -/
def addTag : List (String × TagData) → String → String → Entry → List (String × TagData)
  | [], slug, tag, e => [(slug, ⟨tag, [e]⟩)]
  | (s, d) :: rest, slug, tag, e =>
    if s = slug then (s, ⟨d.name, d.entries ++ [e]⟩) :: rest
    else (s, d) :: addTag rest slug tag e

/-- All `(tag, entry)` occurrences in the iteration order of
`build_tag_index`'s nested loops: years in index order, entries in bucket
order, tags in entry order. -/
def tagOccurrences (yi : List (String × List Entry)) : List (String × Entry) :=
  (yi.map (fun p => (p.2.map (fun e => e.tags.map (fun t => (t, e)))).flatten)).flatten

/-- The `tag_map` of `build_tag_index` before the per-bucket sort. -/
def rawTagMap (yi : List (String × List Entry)) : List (String × TagData) :=
  (tagOccurrences yi).foldl (fun m te => addTag m (slugify_tag te.1) te.1 te.2) []

/-- Embedding of `build_tag_index`: build `tag_map`, then sort every bucket
newest-first (`reverse=True`), independent of the configured order. -/
def build_tag_index (yi : List (String × List Entry)) : List (String × TagData) :=
  (rawTagMap yi).map (fun q => (q.1, ⟨q.2.name, pySortByKey dtKey true q.2.entries⟩))

/-- The matches computed by `build_on_this_day`: entries of every year bucket
whose `_dt` month/day equal the build date's, collected in index order and
then sorted newest-first. -/
def onThisDayMatches (yi : List (String × List Entry)) (mm dd : Nat) : List Entry :=
  pySortByKey dtKey true
    ((yi.map (fun p => p.2.filter (fun e => e.dtM == mm && e.dtD == dd))).flatten)

/-- The no-matches paragraph of `render_on_this_day_page`. -/
def noMatchesMsg : String := "<p>No earlier entries for this date yet.</p>"

/-- The articles block of `render_on_this_day_page`: joined rendered entries,
or the distinct no-matches message when the match list is empty.  Entry
rendering (which calls the external `markdown` library) is abstracted as
`renderE`. -/
def onThisDayArticles (renderE : Entry → String) (entries : List Entry) : String :=
  if entries.isEmpty then noMatchesMsg
  else joinWith "\n\n" (entries.map renderE)

/-- The tag listing of `render_tag_index_page`: items sorted by lowercased
display name, each carrying (slug, display name, entry count). -/
def tag_index_items (tagIndex : List (String × TagData)) :
    List (String × String × Nat) :=
  (sortLeB (fun a b => decide (lowerStr a.2.name ≤ lowerStr b.2.name)) tagIndex).map
    (fun q => (q.1, q.2.name, q.2.entries.length))

/-- One document of the Lunr search index. -/
structure SearchDoc where
  id : String
  year : String
  date : String
  url : String
  fullUrl : String
  title : String
  text : String
deriving DecidableEq, Repr

/-- One search document as `build_search_index` constructs it; `mdText`
abstracts `BeautifulSoup(markdown.markdown(...)).get_text(" ", strip=True)`,
and `siteUrl` is the already `rstrip("/")`-ed `site_url`. -/
def mkSearchDoc (siteUrl : String) (mdText : String → String) (year : String)
    (e : Entry) : SearchDoc :=
  let url := year ++ ".html#" ++ e.date
  { id := year ++ "-" ++ e.date
    year := year
    date := e.date
    url := url
    fullUrl := if siteUrl ≠ "" then siteUrl ++ "/" ++ url else url
    title := e.date
    text := pyStrip (joinWith " " e.tags ++ " " ++ mdText e.contentMd) }

/-- Embedding of the document collection written by `build_search_index`:
one document per surviving entry across all years, in index order. -/
def build_search_index (siteUrl : String) (mdText : String → String)
    (yi : List (String × List Entry)) : List SearchDoc :=
  (yi.map (fun p => p.2.map (mkSearchDoc siteUrl mdText p.1))).flatten

/-- Association lookup in the year index (Python `entries_by_year[year]`). -/
def assocLookup (y : String) : List (String × List Entry) → Option (List Entry)
  | [] => none
  | (s, es) :: rest => if s = y then some es else assocLookup y rest

/-- `latest_year = sorted(entries_by_year.keys())[-1]` from `main`. -/
def latestYearOf (yi : List (String × List Entry)) : Option String :=
  (sortLeB (fun a b => decide (a ≤ b)) (yi.map (fun p => p.1))).getLast?

/-- The entries covered by the RSS feed: `generate_rss` receives exactly the
latest year's bucket. -/
def feedEntries (yi : List (String × List Entry)) : List Entry :=
  match latestYearOf yi with
  | none => []
  | some y => (assocLookup y yi).getD []

/-- The fatal failures of a build run. -/
inductive BuildErr where
  | configNotFound : String → BuildErr
  | dateParseError : BuildErr
  | emptyCorpus : BuildErr
deriving DecidableEq, Repr

/-- The diagnostic printed for each fatal failure (`load_config` and `main`
print to stderr; an invalid date raises an uncaught `ValueError`, shown here
by its exception name). -/
def buildErrMsg : BuildErr → String
  | .configNotFound p => "Config file not found: " ++ p
  | .dateParseError => "uncaught ValueError from strptime"
  | .emptyCorpus => "No entries found."

/-- Every fatal failure exits with status 1 (`sys.exit(1)`, or the
interpreter's exit code for an uncaught exception). -/
def buildErrExit : BuildErr → Nat := fun _ => 1

/-- The failure-relevant skeleton of `main`: `load_config` aborts first when
the config file is unreadable (modelled by `configLoadable`); only then are
entries collected, and an empty corpus aborts with its own message. -/
def buildPrelude (configLoadable : Bool) (configPath : String)
    (tree : List (String × List String)) (order : String) (incl : Bool) :
    Except BuildErr (List (String × List Entry)) :=
  if !configLoadable then .error (.configNotFound configPath)
  else
    match collect_entries_by_year tree order incl with
    | none => .error .dateParseError
    | some yi => if yi.isEmpty then .error .emptyCorpus else .ok yi

example :
    collect_entries_by_year
      [("2024", ["## 2024-01-02\ntags: hiking\nHello world.\n\n## 2024-01-15\ndraft: true\nSecret."])]
      "reverse" false =
    some [("2024", [⟨"2024-01-02", 2, "Hello world.", ["hiking"], false, "2024", 2024, 1, 2⟩])] := by
  decide

example : slugify_tag "Outdoor Trips" = "outdoor-trips" := by decide
example : slugify_tag "outdoor--trips " = "outdoor-trips" := by decide
example : slugify_tag "!!" = "tag" := by decide

/-! ### Spec-side descriptions of the metadata scan (C4, C5, C10) -/

/-- A line whose trimmed lowercase form starts with `tags:` or `draft:` —
the lines the metadata scan consumes when non-blank. -/
def isMetaHeadLine (l : String) : Bool :=
  strStartsWith (lowerStr (pyStrip l)) "tags:" ||
    strStartsWith (lowerStr (pyStrip l)) "draft:"

/-- The spec's stopping rule for the metadata scan: a blank line, or a line
starting with neither metadata keyword. -/
def stopsScan (l : String) : Bool :=
  decide (pyStrip l = "") || !(isMetaHeadLine l)

/-- Index of the first line at which the spec says the metadata scan stops. -/
def firstStop : List String → Option Nat
  | [] => none
  | l :: rest => if stopsScan l then some 0 else (firstStop rest).map (· + 1)

/-- The metadata lines actually consumed by the scan: the longest non-stopping
head of the line list. -/
def consumedMeta (ls : List String) : List String :=
  ls.takeWhile (fun l => !(stopsScan l))

/-- The tag list carried by a `tags:` line. -/
def tagsLineVal (l : String) : List String :=
  parseTagStr (pyStrip (dropChars (pyStrip l) 5))

/-- The draft flag carried by a `draft:` line. -/
def draftLineVal (l : String) : Bool :=
  truthyDraft (lowerStr (pyStrip (dropChars (pyStrip l) 6)))

/-- Lines whose trimmed lowercase form starts with `tags:`. -/
def isTagsLine (l : String) : Bool := strStartsWith (lowerStr (pyStrip l)) "tags:"

/-- Lines whose trimmed lowercase form starts with `draft:`. -/
def isDraftLine (l : String) : Bool := strStartsWith (lowerStr (pyStrip l)) "draft:"

/-- The value of the last `tags:` line in a list, if any. -/
def lastTagsOf : List String → Option (List String)
  | [] => none
  | l :: rest =>
    match lastTagsOf rest with
    | some v => some v
    | none => if isTagsLine l then some (tagsLineVal l) else none

/-- The value of the last `draft:` line in a list, if any. -/
def lastDraftOf : List String → Option Bool
  | [] => none
  | l :: rest =>
    match lastDraftOf rest with
    | some v => some v
    | none => if isDraftLine l then some (draftLineVal l) else none

/-- Whether a (stripped) body does not itself begin with a metadata-looking
line: the condition under which a second `extract_meta` pass is inert. -/
def headLineNotMeta (b : String) : Bool :=
  match splitLinesPy b with
  | [] => true
  | l :: _ => !(isMetaHeadLine l)

/-! ### Basic lemmas about the string primitives -/

theorem head_dropWhile_not (p : α → Bool) :
    ∀ (l : List α) (c : α), (l.dropWhile p).head? = some c → p c = false := by
  intro l
  induction l with
  | nil => intro c h; simp [List.dropWhile] at h
  | cons x xs ih =>
    intro c h
    by_cases hx : p x
    · rw [List.dropWhile_cons_of_pos hx] at h
      exact ih c h
    · rw [List.dropWhile_cons_of_neg hx] at h
      simp at h
      subst h
      simpa using hx

theorem getLast_dropWhile (p : α → Bool) :
    ∀ l : List α, l.dropWhile p ≠ [] → (l.dropWhile p).getLast? = l.getLast? := by
  intro l
  induction l with
  | nil => intro h; simp [List.dropWhile] at h
  | cons x xs ih =>
    intro h
    by_cases hx : p x
    · rw [List.dropWhile_cons_of_pos hx] at h ⊢
      have hxs : xs ≠ [] := by
        intro hn; subst hn; simp [List.dropWhile] at h
      rw [ih h]
      cases xs with
      | nil => exact absurd rfl hxs
      | cons y ys => rw [List.getLast?_cons_cons]
    · rw [List.dropWhile_cons_of_neg hx]

theorem chain_dropWhile {R : α → α → Prop} (p : α → Bool) :
    ∀ l : List α, List.Chain' R l → List.Chain' R (l.dropWhile p) := by
  intro l
  induction l with
  | nil => intro h; simp [List.dropWhile]
  | cons x xs ih =>
    intro h
    by_cases hx : p x
    · rw [List.dropWhile_cons_of_pos hx]
      exact ih h.tail
    · rw [List.dropWhile_cons_of_neg hx]
      exact h

theorem mem_dropWhile_sub (p : α → Bool) {l : List α} {c : α}
    (h : c ∈ l.dropWhile p) : c ∈ l :=
  (List.dropWhile_sublist _).mem h

/-- `pyStripChars` never introduces characters. -/
theorem pyStripChars_mem {p : Char → Bool} {l : List Char} {c : Char}
    (h : c ∈ pyStripChars p l) : c ∈ l := by
  unfold pyStripChars at h
  rw [List.mem_reverse] at h
  have h2 := mem_dropWhile_sub p h
  rw [List.mem_reverse] at h2
  exact mem_dropWhile_sub p h2

/-- The first character surviving `pyStripChars` does not satisfy `p`. -/
theorem pyStripChars_head {p : Char → Bool} {l : List Char} {c : Char}
    (h : (pyStripChars p l).head? = some c) : p c = false := by
  unfold pyStripChars at h
  rw [List.head?_reverse] at h
  have hBne : (l.dropWhile p).reverse.dropWhile p ≠ [] := by
    intro hn
    rw [hn] at h
    simp at h
  rw [getLast_dropWhile p _ hBne, List.getLast?_reverse] at h
  exact head_dropWhile_not p _ c h

/-- The last character surviving `pyStripChars` does not satisfy `p`. -/
theorem pyStripChars_getLast {p : Char → Bool} {l : List Char} {c : Char}
    (h : (pyStripChars p l).getLast? = some c) : p c = false := by
  unfold pyStripChars at h
  rw [List.getLast?_reverse] at h
  exact head_dropWhile_not p _ c h

/-- `pyStripChars` preserves a symmetric adjacency invariant. -/
theorem pyStripChars_chain {R : Char → Char → Prop} (hsym : ∀ a b, R a b → R b a)
    {p : Char → Bool} {l : List Char} (h : List.Chain' R l) :
    List.Chain' R (pyStripChars p l) := by
  unfold pyStripChars
  rw [List.chain'_reverse]
  apply List.Chain'.imp (fun a b hr => hsym a b hr)
  apply chain_dropWhile
  rw [List.chain'_reverse]
  apply List.Chain'.imp (fun a b hr => hsym a b hr)
  exact chain_dropWhile p l h

/-! ### C9: invariants of `slugify_tag` -/

/-- Characters emitted by `collapseRunsGo` are the replacement or original
characters. -/
theorem collapseRunsGo_mem {p : Char → Bool} {repl : Char} :
    ∀ (b : Bool) (l : List Char) (c : Char), c ∈ collapseRunsGo p repl b l →
      c = repl ∨ c ∈ l := by
  intro b l
  induction l generalizing b with
  | nil => intro c h; simp [collapseRunsGo] at h
  | cons x xs ih =>
    intro c h
    unfold collapseRunsGo at h
    by_cases hx : p x
    · simp only [hx, if_true] at h
      by_cases hb : b
      · subst hb
        simp only [if_true] at h
        rcases ih true c h with h1 | h1
        · exact Or.inl h1
        · exact Or.inr (List.mem_cons_of_mem _ h1)
      · simp only [hb, if_false] at h
        rcases List.mem_cons.1 h with h1 | h1
        · exact Or.inl h1
        · rcases ih true c h1 with h2 | h2
          · exact Or.inl h2
          · exact Or.inr (List.mem_cons_of_mem _ h2)
    · simp only [hx, if_false] at h
      rcases List.mem_cons.1 h with h1 | h1
      · exact Or.inr (h1 ▸ List.mem_cons_self x xs)
      · rcases ih false c h1 with h2 | h2
        · exact Or.inl h2
        · exact Or.inr (List.mem_cons_of_mem _ h2)

/-- After a run has been collapsed, the next emitted character does not
satisfy `p`. -/
theorem collapseRunsGo_true_head {p : Char → Bool} {repl : Char} :
    ∀ (l : List Char) (c : Char), (collapseRunsGo p repl true l).head? = some c →
      p c = false := by
  intro l
  induction l with
  | nil => intro c h; simp [collapseRunsGo] at h
  | cons x xs ih =>
    intro c h
    unfold collapseRunsGo at h
    by_cases hx : p x
    · simp only [hx, if_true] at h
      exact ih c h
    · simp only [hx, if_false] at h
      simp at h
      subst h
      simpa using hx

/-- The output of `collapseRunsGo` has no two adjacent characters satisfying
`p`. -/
theorem collapseRunsGo_chain {p : Char → Bool} {repl : Char} :
    ∀ (b : Bool) (l : List Char),
      List.Chain' (fun a c => ¬(p a = true ∧ p c = true)) (collapseRunsGo p repl b l) := by
  intro b l
  induction l generalizing b with
  | nil => simp [collapseRunsGo]
  | cons x xs ih =>
    unfold collapseRunsGo
    by_cases hx : p x
    · simp only [hx, if_true]
      by_cases hb : b
      · subst hb; simpa using ih true
      · simp only [hb, if_false]
        apply List.chain'_cons'.2
        refine ⟨?_, ih true⟩
        intro y hy
        intro hcon
        have := collapseRunsGo_true_head xs y hy
        rw [this] at hcon
        exact absurd hcon.2 (by simp)
    · simp only [hx, if_false]
      apply List.chain'_cons'.2
      refine ⟨?_, ih false⟩
      intro y _ hcon
      exact hx hcon.1

/-- The hyphen character is allowed in a slug. -/
theorem hyphen_allowed : slugAllowed '-' = true := by decide

/-- The character list underlying `slugCore`, spelled out. -/
theorem slugCore_data (t : String) :
    (slugCore t).data =
      pyStripChars (fun c => c = '-')
        (collapseRuns (fun c => c = '-') '-'
          ((collapseRuns isWsUnd '-' (lowerStr (pyStrip t)).data).filter slugAllowed)) := rfl

/-- `dropWhile` skips a block of satisfying elements wholesale. -/
theorem dropWhile_append_of_all (p : α → Bool) :
    ∀ (a b : List α), (∀ c ∈ a, p c = true) → (a ++ b).dropWhile p = b.dropWhile p := by
  intro a
  induction a with
  | nil => intro b _; rfl
  | cons x xs ih =>
    intro b h
    have hx : p x = true := h x (List.mem_cons_self x xs)
    rw [List.cons_append, List.dropWhile_cons_of_pos hx]
    exact ih b (fun c hc => h c (List.mem_cons_of_mem _ hc))

/-- If stripping empties a list, every element satisfied the predicate. -/
theorem pyStripChars_empty_all {p : Char → Bool} {a : List Char}
    (h : pyStripChars p a = []) : ∀ c ∈ a, p c = true := by
  unfold pyStripChars at h
  rw [List.reverse_eq_nil_iff] at h
  have h2 : ∀ c ∈ a.dropWhile p, p c = true := by
    intro c hc
    exact List.dropWhile_eq_nil_iff.1 h c (List.mem_reverse.2 hc)
  have h3 : a.dropWhile p = [] := by
    cases hd : a.dropWhile p with
    | nil => rfl
    | cons x xs =>
      have hhead := head_dropWhile_not p a x (by rw [hd]; rfl)
      have hx := h2 x (by rw [hd]; exact List.mem_cons_self x xs)
      rw [hhead] at hx
      exact absurd hx (by simp)
  exact List.dropWhile_eq_nil_iff.1 h3

/-- A leading all-satisfying block followed by one satisfying element is
invisible to `pyStripChars`. -/
theorem pyStripChars_ws_cons {p : Char → Bool} {a : List Char} {x : Char}
    (ha : ∀ c ∈ a, p c = true) (hx : p x = true) (b : List Char) :
    pyStripChars p (a ++ x :: b) = pyStripChars p b := by
  unfold pyStripChars
  rw [dropWhile_append_of_all p a (x :: b) ha, List.dropWhile_cons_of_pos hx]

/-- `pyStripChars` starting from a non-satisfying head is non-empty. -/
theorem pyStripChars_ne_nil_of_head {p : Char → Bool} {c : Char} {t : List Char}
    (hc : p c = false) : pyStripChars p (c :: t) ≠ [] := by
  intro hn
  have := pyStripChars_empty_all hn c (List.mem_cons_self c t)
  rw [hc] at this
  exact absurd this (by simp)

/-- `dropWhile` is the identity when the head does not satisfy `p`. -/
theorem dropWhile_eq_self_of_head (p : α → Bool) (l : List α)
    (h : ∀ c, l.head? = some c → p c = false) : l.dropWhile p = l := by
  cases l with
  | nil => rfl
  | cons x xs =>
    have hx := h x rfl
    rw [List.dropWhile_cons_of_neg (by simp [hx])]

/-- Stripping is idempotent. -/
theorem pyStripChars_idem (p : Char → Bool) (l : List Char) :
    pyStripChars p (pyStripChars p l) = pyStripChars p l := by
  have h1 : (pyStripChars p l).dropWhile p = pyStripChars p l :=
    dropWhile_eq_self_of_head p _ (fun c hc => pyStripChars_head hc)
  have h2 : ((pyStripChars p l).reverse).dropWhile p = (pyStripChars p l).reverse :=
    dropWhile_eq_self_of_head p _ (fun c hc => by
      rw [List.head?_reverse] at hc
      exact pyStripChars_getLast hc)
  show (((pyStripChars p l).dropWhile p).reverse.dropWhile p).reverse = pyStripChars p l
  rw [h1, h2, List.reverse_reverse]

/-- The character list underlying `pyStrip`. -/
theorem pyStrip_data (s : String) : (pyStrip s).data = pyStripChars pyWs s.data := rfl

/-- A string is empty exactly when its character list is. -/
theorem string_eq_empty_iff (s : String) : s = "" ↔ s.data = [] := by
  cases s with
  | mk d =>
    constructor
    · intro h
      simpa using congrArg String.data h
    · intro h
      subst h
      rfl

/-- C9: for every input string `slugify_tag` returns a non-empty string made
only of `[a-z0-9-]` characters, with no leading hyphen, no trailing hyphen
and no two consecutive hyphens; and an input whose normalisation is empty
yields the literal slug `"tag"`. -/
theorem slugify_tag_invariants (t : String) :
    (slugify_tag t).data ≠ [] ∧
    (∀ c ∈ (slugify_tag t).data, slugAllowed c = true) ∧
    (slugify_tag t).data.head? ≠ some '-' ∧
    (slugify_tag t).data.getLast? ≠ some '-' ∧
    List.Chain' (fun a b => ¬(a = '-' ∧ b = '-')) (slugify_tag t).data ∧
    (slugCore t = "" → slugify_tag t = "tag") := by
  by_cases hempty : slugCore t = ""
  · have hres : slugify_tag t = "tag" := by
      unfold slugify_tag
      simp [hempty]
    rw [hres]
    have hch : List.Chain' (fun a b => ¬(a = '-' ∧ b = '-')) ("tag".data) := by
      show List.Chain' (fun a b => ¬(a = '-' ∧ b = '-')) ['t', 'a', 'g']
      refine List.chain'_cons.2 ⟨by decide, List.chain'_cons.2 ⟨by decide, ?_⟩⟩
      exact List.chain'_singleton _
    exact ⟨by decide, by decide, by decide, by decide, hch, fun _ => rfl⟩
  · have hres : slugify_tag t = slugCore t := by
      unfold slugify_tag
      simp [hempty]
    rw [hres]
    have hne : (slugCore t).data ≠ [] := fun hn =>
      hempty ((string_eq_empty_iff _).2 hn)
    rw [slugCore_data]
    rw [slugCore_data] at hne
    have hall : ∀ c ∈ (slugCore t).data, slugAllowed c = true := by
      rw [slugCore_data]
      intro c hc
      have hc2 := pyStripChars_mem hc
      rcases collapseRunsGo_mem false _ c hc2 with h1 | h1
      · rw [h1]; exact hyphen_allowed
      · exact List.of_mem_filter h1
    rw [slugCore_data] at hall
    have hhead :
        (pyStripChars (fun c => c = '-')
          (collapseRuns (fun c => c = '-') '-'
            ((collapseRuns isWsUnd '-' (lowerStr (pyStrip t)).data).filter slugAllowed))).head? ≠
          some '-' := by
      intro hcon
      have := pyStripChars_head hcon
      simp at this
    have hlast :
        (pyStripChars (fun c => c = '-')
          (collapseRuns (fun c => c = '-') '-'
            ((collapseRuns isWsUnd '-' (lowerStr (pyStrip t)).data).filter slugAllowed))).getLast? ≠
          some '-' := by
      intro hcon
      have := pyStripChars_getLast hcon
      simp at this
    have hchain : List.Chain' (fun a b => ¬(a = '-' ∧ b = '-'))
        (pyStripChars (fun c => c = '-')
          (collapseRuns (fun c => c = '-') '-'
            ((collapseRuns isWsUnd '-' (lowerStr (pyStrip t)).data).filter slugAllowed))) := by
      have hbase := @collapseRunsGo_chain (fun c : Char => decide (c = '-')) '-'
        false ((collapseRuns isWsUnd '-' (lowerStr (pyStrip t)).data).filter slugAllowed)
      have hbase2 : List.Chain' (fun a b : Char => ¬(a = '-' ∧ b = '-'))
          (collapseRuns (fun c => c = '-') '-'
            ((collapseRuns isWsUnd '-' (lowerStr (pyStrip t)).data).filter slugAllowed)) := by
        apply hbase.imp
        intro a b hab
        simpa using hab
      exact pyStripChars_chain (fun a b hab hc => hab ⟨hc.2, hc.1⟩) hbase2
    exact ⟨hne, hall, hhead, hlast, hchain, fun hc => absurd hc hempty⟩

/-- String-level idempotence of stripping. -/
theorem pyStrip_idem (s : String) : pyStrip (pyStrip s) = pyStrip s := by
  show String.mk (pyStripChars pyWs (pyStrip s).data) = pyStrip s
  rw [pyStrip_data, pyStripChars_idem]
  rfl

/-- `splitLinesList` of a non-empty list is non-empty. -/
theorem splitLinesList_ne_nil {cs : List Char} (h : cs ≠ []) :
    splitLinesList cs ≠ [] := by
  cases cs with
  | nil => exact absurd rfl h
  | cons c cst =>
    unfold splitLinesList
    by_cases hc : c = '\n'
    · simp [hc]
    · simp only [hc, if_false]
      cases splitLinesList cst with
      | nil => simp
      | cons l ls => simp

/-- Splitting at newlines and re-joining is the identity on text without a
trailing newline. -/
theorem joinSplit : ∀ cs : List Char, cs.getLast? ≠ some '\n' →
    joinLinesList (splitLinesList cs) = cs := by
  intro cs
  induction cs with
  | nil => intro _; rfl
  | cons c cst ih =>
    intro h
    by_cases hc : c = '\n'
    · subst hc
      cases cst with
      | nil => simp at h
      | cons d ds =>
        rw [List.getLast?_cons_cons] at h
        have hne : splitLinesList (d :: ds) ≠ [] := splitLinesList_ne_nil (by simp)
        unfold splitLinesList
        simp only [if_pos rfl]
        cases hs : splitLinesList (d :: ds) with
        | nil => exact absurd hs hne
        | cons l ls =>
          show joinLinesList ([] :: l :: ls) = '\n' :: d :: ds
          have hj : joinLinesList (l :: ls) = d :: ds := by rw [← hs]; exact ih h
          show [] ++ '\n' :: joinLinesList (l :: ls) = '\n' :: d :: ds
          rw [hj]
          rfl
    · unfold splitLinesList
      simp only [hc, if_false]
      cases cst with
      | nil =>
        show joinLinesList [[c]] = [c]
        rfl
      | cons d ds =>
        rw [List.getLast?_cons_cons] at h
        have hne : splitLinesList (d :: ds) ≠ [] := splitLinesList_ne_nil (by simp)
        cases hs : splitLinesList (d :: ds) with
        | nil => exact absurd hs hne
        | cons l ls =>
          have hj : joinLinesList (l :: ls) = d :: ds := by rw [← hs]; exact ih h
          cases ls with
          | nil =>
            show joinLinesList [c :: l] = c :: d :: ds
            show c :: l = c :: d :: ds
            have : l = d :: ds := hj
            rw [this]
          | cons m ms =>
            show (c :: l) ++ '\n' :: joinLinesList (m :: ms) = c :: d :: ds
            have : l ++ '\n' :: joinLinesList (m :: ms) = d :: ds := hj
            rw [List.cons_append, this]

/-- Two strings with the same character list are equal. -/
theorem string_data_inj {s t : String} (h : s.data = t.data) : s = t := by
  cases s
  cases t
  cases h
  rfl

/-- Joining the split lines of a string without trailing newline gives the
string back. -/
theorem joinLines_splitLinesPy (b : String) (h : b.data.getLast? ≠ some '\n') :
    joinLines (splitLinesPy b) = b := by
  apply string_data_inj
  show joinLinesList (((splitLinesList b.data).map String.mk).map String.data) = b.data
  rw [List.map_map]
  have hid : (String.data ∘ String.mk) = id := by
    funext l
    rfl
  rw [hid, List.map_id]
  exact joinSplit b.data h

/-- A blank first line (whitespace-only) is absorbed by the final strip of
the joined tail. -/
theorem pyStrip_blank_cons {l : String} (h : pyStrip l = "") (rest : List String) :
    pyStrip (joinLines (l :: rest)) = pyStrip (joinLines rest) := by
  have hall : ∀ c ∈ l.data, pyWs c = true := by
    apply pyStripChars_empty_all
    rw [← pyStrip_data, h]
  cases rest with
  | nil =>
    have h1 : joinLines [l] = l := string_data_inj rfl
    have h2 : joinLines ([] : List String) = "" := rfl
    rw [h1, h2, h]
    rfl
  | cons r rs =>
    show String.mk (pyStripChars pyWs (joinLines (l :: r :: rs)).data) =
      String.mk (pyStripChars pyWs (joinLines (r :: rs)).data)
    have h1 : (joinLines (l :: r :: rs)).data =
        l.data ++ '\n' :: joinLinesList ((r :: rs).map String.data) := rfl
    have h2 : (joinLines (r :: rs)).data = joinLinesList ((r :: rs).map String.data) := rfl
    rw [h1, h2, pyStripChars_ws_cons hall (by decide)]

/-! ### Branch equations for `scanMeta` -/

/-- `scanMeta` on a blank line. -/
theorem scanMeta_cons_blank {l : String} (h : pyStrip l = "")
    (rest : List String) (t : List String) (d : Bool) :
    scanMeta (l :: rest) t d = (some 1, t, d) := by
  unfold scanMeta
  simp [h]

/-- `scanMeta` on a `tags:` line. -/
theorem scanMeta_cons_tags {l : String} (h1 : ¬pyStrip l = "")
    (h2 : strStartsWith (lowerStr (pyStrip l)) "tags:" = true)
    (rest : List String) (t : List String) (d : Bool) :
    scanMeta (l :: rest) t d =
      ((scanMeta rest (tagsLineVal l) d).1.map (· + 1),
        (scanMeta rest (tagsLineVal l) d).2) := by
  simp only [scanMeta]
  simp [h1, h2, tagsLineVal]

/-- `scanMeta` on a `draft:` line. -/
theorem scanMeta_cons_draft {l : String} (h1 : ¬pyStrip l = "")
    (h2 : strStartsWith (lowerStr (pyStrip l)) "tags:" = false)
    (h3 : strStartsWith (lowerStr (pyStrip l)) "draft:" = true)
    (rest : List String) (t : List String) (d : Bool) :
    scanMeta (l :: rest) t d =
      ((scanMeta rest t (draftLineVal l)).1.map (· + 1),
        (scanMeta rest t (draftLineVal l)).2) := by
  simp only [scanMeta]
  simp [h1, h2, h3, draftLineVal]

/-- `scanMeta` on a stopping (non-blank, non-metadata) line. -/
theorem scanMeta_cons_other {l : String} (h1 : ¬pyStrip l = "")
    (h2 : strStartsWith (lowerStr (pyStrip l)) "tags:" = false)
    (h3 : strStartsWith (lowerStr (pyStrip l)) "draft:" = false)
    (rest : List String) (t : List String) (d : Bool) :
    scanMeta (l :: rest) t d = (some 0, t, d) := by
  unfold scanMeta
  simp [h1, h2, h3]

/-- The scan runs off the end exactly when the spec's stopping rule never
fires. -/
theorem scanMeta_none_iff : ∀ (ls : List String) (t : List String) (d : Bool),
    (scanMeta ls t d).1 = none ↔ firstStop ls = none := by
  intro ls
  induction ls with
  | nil => intro t d; simp [scanMeta, firstStop]
  | cons l rest ih =>
    intro t d
    by_cases hb : pyStrip l = ""
    · have hstop : stopsScan l = true := by simp [stopsScan, hb]
      rw [scanMeta_cons_blank hb]
      simp [firstStop, hstop]
    · by_cases ht : strStartsWith (lowerStr (pyStrip l)) "tags:" = true
      · have hmeta : isMetaHeadLine l = true := by simp [isMetaHeadLine, ht]
        have hstop : stopsScan l = false := by simp [stopsScan, hb, hmeta]
        rw [scanMeta_cons_tags hb ht]
        simp only [firstStop, hstop, Bool.false_eq_true, if_false]
        rw [Option.map_eq_none', Option.map_eq_none']
        exact ih (tagsLineVal l) d
      · have ht' : strStartsWith (lowerStr (pyStrip l)) "tags:" = false := by
          simpa using ht
        by_cases hd : strStartsWith (lowerStr (pyStrip l)) "draft:" = true
        · have hmeta : isMetaHeadLine l = true := by simp [isMetaHeadLine, hd]
          have hstop : stopsScan l = false := by simp [stopsScan, hb, hmeta]
          rw [scanMeta_cons_draft hb ht' hd]
          simp only [firstStop, hstop, Bool.false_eq_true, if_false]
          rw [Option.map_eq_none', Option.map_eq_none']
          exact ih t (draftLineVal l)
        · have hd' : strStartsWith (lowerStr (pyStrip l)) "draft:" = false := by
            simpa using hd
          have hmeta : isMetaHeadLine l = false := by simp [isMetaHeadLine, ht', hd']
          have hstop : stopsScan l = true := by simp [stopsScan, hmeta]
          rw [scanMeta_cons_other hb ht' hd']
          simp [firstStop, hstop]

/-- Core of C4: whichever branch stops the scan, the resulting body is the
trimmed join of the lines from the spec's stopping index onward. -/
theorem scanMeta_body : ∀ (ls : List String) (t : List String) (d : Bool) (s : Nat),
    firstStop ls = some s →
    pyStrip (joinLines (ls.drop ((scanMeta ls t d).1.getD 0))) =
      pyStrip (joinLines (ls.drop s)) := by
  intro ls
  induction ls with
  | nil => intro t d s h; simp [firstStop] at h
  | cons l rest ih =>
    intro t d s h
    by_cases hb : pyStrip l = ""
    · have hstop : stopsScan l = true := by simp [stopsScan, hb]
      rw [firstStop] at h
      rw [hstop] at h
      simp at h
      subst h
      rw [scanMeta_cons_blank hb]
      show pyStrip (joinLines ((l :: rest).drop 1)) = pyStrip (joinLines ((l :: rest).drop 0))
      rw [List.drop_zero, List.drop_succ_cons, List.drop_zero]
      exact (pyStrip_blank_cons hb rest).symm
    · by_cases ht : strStartsWith (lowerStr (pyStrip l)) "tags:" = true
      · have hmeta : isMetaHeadLine l = true := by simp [isMetaHeadLine, ht]
        have hstop : stopsScan l = false := by simp [stopsScan, hb, hmeta]
        rw [firstStop, hstop] at h
        simp only [Bool.false_eq_true, if_false, Option.map_eq_some'] at h
        obtain ⟨s', hs', rfl⟩ := h
        rw [scanMeta_cons_tags hb ht]
        cases hr : (scanMeta rest (tagsLineVal l) d).1 with
        | none =>
          exfalso
          have := (scanMeta_none_iff rest (tagsLineVal l) d).1 hr
          rw [this] at hs'
          exact absurd hs' (by simp)
        | some k =>
          simp only [hr, Option.map_some', Option.getD_some]
          rw [List.drop_succ_cons, List.drop_succ_cons]
          have := ih (tagsLineVal l) d s' hs'
          rw [hr] at this
          simpa using this
      · have ht' : strStartsWith (lowerStr (pyStrip l)) "tags:" = false := by
          simpa using ht
        by_cases hd : strStartsWith (lowerStr (pyStrip l)) "draft:" = true
        · have hmeta : isMetaHeadLine l = true := by simp [isMetaHeadLine, hd]
          have hstop : stopsScan l = false := by simp [stopsScan, hb, hmeta]
          rw [firstStop, hstop] at h
          simp only [Bool.false_eq_true, if_false, Option.map_eq_some'] at h
          obtain ⟨s', hs', rfl⟩ := h
          rw [scanMeta_cons_draft hb ht' hd]
          cases hr : (scanMeta rest t (draftLineVal l)).1 with
          | none =>
            exfalso
            have := (scanMeta_none_iff rest t (draftLineVal l)).1 hr
            rw [this] at hs'
            exact absurd hs' (by simp)
          | some k =>
            simp only [hr, Option.map_some', Option.getD_some]
            rw [List.drop_succ_cons, List.drop_succ_cons]
            have := ih t (draftLineVal l) s' hs'
            rw [hr] at this
            simpa using this
        · have hd' : strStartsWith (lowerStr (pyStrip l)) "draft:" = false := by
            simpa using hd
          have hmeta : isMetaHeadLine l = false := by simp [isMetaHeadLine, ht', hd']
          have hstop : stopsScan l = true := by simp [stopsScan, hmeta]
          rw [firstStop] at h
          rw [hstop] at h
          simp at h
          subst h
          rw [scanMeta_cons_other hb ht' hd']
          rfl

/-- C4: for every raw entry body, when the scan of `extract_meta` stops — at
the first blank line or at the first line whose trimmed lowercase form starts
with neither `tags:` nor `draft:` — the resulting body equals the text from
that stopping line's index onward, trimmed.  (For a blank-line stop the code
drops from index `s + 1`, but the final trim absorbs the whitespace-only
line, so the two agree.) -/
theorem extract_meta_stop_body (text : String) (s : Nat)
    (h : firstStop (splitLinesPy text) = some s) :
    (extract_meta text).body = pyStrip (joinLines ((splitLinesPy text).drop s)) :=
  scanMeta_body (splitLinesPy text) [] false s h

/-- Witness for C4 at a concrete input whose scan stops at the blank line
with index 1. -/
theorem extract_meta_stop_body_witness :
    firstStop (splitLinesPy "tags: a\n\nBody") = some 1 ∧
    (extract_meta "tags: a\n\nBody").body =
      pyStrip (joinLines ((splitLinesPy "tags: a\n\nBody").drop 1)) :=
  ⟨by decide, extract_meta_stop_body "tags: a\n\nBody" 1 (by decide)⟩

/-- A string starting with `tags:` does not start with `draft:`. -/
theorem tags_not_draft {lo : String} (h : strStartsWith lo "tags:" = true) :
    strStartsWith lo "draft:" = false := by
  unfold strStartsWith at h ⊢
  have hpat : ("tags:" : String).data = ['t', 'a', 'g', 's', ':'] := rfl
  have hpat2 : ("draft:" : String).data = ['d', 'r', 'a', 'f', 't', ':'] := rfl
  rw [hpat] at h
  rw [hpat2]
  cases hd : lo.data with
  | nil =>
    rw [hd] at h
    simp [startsWithChars] at h
  | cons c cs =>
    rw [hd] at h
    have hc : 't' = c := by
      by_contra hne
      simp [startsWithChars, hne] at h
    rw [← hc]
    simp [startsWithChars]

/-- `lastTagsOf` on a cons when the tail has a `tags:` line. -/
theorem lastTagsOf_cons_some {rest : List String} {v : List String}
    (h : lastTagsOf rest = some v) (l : String) : lastTagsOf (l :: rest) = some v := by
  unfold lastTagsOf
  rw [h]

/-- `lastTagsOf` on a cons when the tail has no `tags:` line. -/
theorem lastTagsOf_cons_none {rest : List String}
    (h : lastTagsOf rest = none) (l : String) :
    lastTagsOf (l :: rest) = if isTagsLine l then some (tagsLineVal l) else none := by
  unfold lastTagsOf
  rw [h]

/-- `lastDraftOf` on a cons when the tail has a `draft:` line. -/
theorem lastDraftOf_cons_some {rest : List String} {v : Bool}
    (h : lastDraftOf rest = some v) (l : String) : lastDraftOf (l :: rest) = some v := by
  unfold lastDraftOf
  rw [h]

/-- `lastDraftOf` on a cons when the tail has no `draft:` line. -/
theorem lastDraftOf_cons_none {rest : List String}
    (h : lastDraftOf rest = none) (l : String) :
    lastDraftOf (l :: rest) = if isDraftLine l then some (draftLineVal l) else none := by
  unfold lastDraftOf
  rw [h]

/-- Core of C10: the scan's final tags value is that of the last consumed
`tags:` line (or the incoming accumulator when none was consumed), and
likewise for the draft flag. -/
theorem scanMeta_last : ∀ (ls : List String) (t : List String) (d : Bool),
    (scanMeta ls t d).2.1 = (lastTagsOf (consumedMeta ls)).getD t ∧
    (scanMeta ls t d).2.2 = (lastDraftOf (consumedMeta ls)).getD d := by
  intro ls
  induction ls with
  | nil => intro t d; simp [scanMeta, consumedMeta, lastTagsOf, lastDraftOf]
  | cons l rest ih =>
    intro t d
    by_cases hb : pyStrip l = ""
    · have hstop : stopsScan l = true := by simp [stopsScan, hb]
      have hcm : consumedMeta (l :: rest) = [] := by
        unfold consumedMeta
        rw [List.takeWhile_cons_of_neg (by simp [hstop])]
      rw [scanMeta_cons_blank hb, hcm]
      simp [lastTagsOf, lastDraftOf]
    · by_cases ht : strStartsWith (lowerStr (pyStrip l)) "tags:" = true
      · have hmeta : isMetaHeadLine l = true := by simp [isMetaHeadLine, ht]
        have hstop : stopsScan l = false := by simp [stopsScan, hb, hmeta]
        have hcm : consumedMeta (l :: rest) = l :: consumedMeta rest := by
          unfold consumedMeta
          rw [List.takeWhile_cons_of_pos (by simp [hstop])]
        rw [scanMeta_cons_tags hb ht, hcm]
        have hIH := ih (tagsLineVal l) d
        constructor
        · show (scanMeta rest (tagsLineVal l) d).2.1 = _
          rw [hIH.1]
          cases hlt : lastTagsOf (consumedMeta rest) with
          | some v =>
            rw [lastTagsOf_cons_some hlt l]
            simp
          | none =>
            have htl : isTagsLine l = true := ht
            rw [lastTagsOf_cons_none hlt l, htl]
            simp
        · show (scanMeta rest (tagsLineVal l) d).2.2 = _
          rw [hIH.2]
          cases hld : lastDraftOf (consumedMeta rest) with
          | some v =>
            rw [lastDraftOf_cons_some hld l]
          | none =>
            have hdl : isDraftLine l = false := tags_not_draft ht
            rw [lastDraftOf_cons_none hld l, hdl]
            simp
      · have ht' : strStartsWith (lowerStr (pyStrip l)) "tags:" = false := by
          simpa using ht
        by_cases hd : strStartsWith (lowerStr (pyStrip l)) "draft:" = true
        · have hmeta : isMetaHeadLine l = true := by simp [isMetaHeadLine, hd]
          have hstop : stopsScan l = false := by simp [stopsScan, hb, hmeta]
          have hcm : consumedMeta (l :: rest) = l :: consumedMeta rest := by
            unfold consumedMeta
            rw [List.takeWhile_cons_of_pos (by simp [hstop])]
          rw [scanMeta_cons_draft hb ht' hd, hcm]
          have hIH := ih t (draftLineVal l)
          constructor
          · show (scanMeta rest t (draftLineVal l)).2.1 = _
            rw [hIH.1]
            cases hlt : lastTagsOf (consumedMeta rest) with
            | some v =>
              rw [lastTagsOf_cons_some hlt l]
            | none =>
              have htl : isTagsLine l = false := ht'
              rw [lastTagsOf_cons_none hlt l, htl]
              simp
          · show (scanMeta rest t (draftLineVal l)).2.2 = _
            rw [hIH.2]
            cases hld : lastDraftOf (consumedMeta rest) with
            | some v =>
              rw [lastDraftOf_cons_some hld l]
              simp
            | none =>
              have hdl : isDraftLine l = true := hd
              rw [lastDraftOf_cons_none hld l, hdl]
              simp
        · have hd' : strStartsWith (lowerStr (pyStrip l)) "draft:" = false := by
            simpa using hd
          have hmeta : isMetaHeadLine l = false := by simp [isMetaHeadLine, ht', hd']
          have hstop : stopsScan l = true := by simp [stopsScan, hmeta]
          have hcm : consumedMeta (l :: rest) = [] := by
            unfold consumedMeta
            rw [List.takeWhile_cons_of_neg (by simp [hstop])]
          rw [scanMeta_cons_other hb ht' hd', hcm]
          simp [lastTagsOf, lastDraftOf]

/-- C10: when the metadata block contains several `tags:` lines before the
scan stops, only the last one's tag list survives (each `tags:` line replaces
the previous list), and likewise a later `draft:` line replaces the value of
an earlier one: the extracted values are those of the last consumed
`tags:` / `draft:` lines, with `[]` / `false` as defaults. -/
theorem extract_meta_last_wins (text : String) :
    (extract_meta text).tags =
      (lastTagsOf (consumedMeta (splitLinesPy text))).getD [] ∧
    (extract_meta text).draft =
      (lastDraftOf (consumedMeta (splitLinesPy text))).getD false :=
  scanMeta_last (splitLinesPy text) [] false

/-- The body computed by `extract_meta`, spelled out. -/
theorem extract_meta_body_eq (c : String) :
    (extract_meta c).body =
      pyStrip (joinLines ((splitLinesPy c).drop
        ((scanMeta (splitLinesPy c) [] false).1.getD 0))) := rfl

/-- On an already-stripped text whose first line is not a metadata line,
`extract_meta` returns the text unchanged with empty metadata. -/
theorem extract_meta_of_stripped (y : String)
    (h : headLineNotMeta (pyStrip y) = true) :
    extract_meta (pyStrip y) = ⟨pyStrip y, [], false⟩ := by
  cases hd : (pyStrip y).data with
  | nil =>
    have hb : pyStrip y = "" := (string_eq_empty_iff _).2 hd
    rw [hb]
    decide
  | cons ch cst =>
    have hch : pyWs ch = false := by
      apply pyStripChars_head (p := pyWs) (l := y.data)
      rw [← pyStrip_data, hd]
      rfl
    have hlast : (pyStrip y).data.getLast? ≠ some '\n' := by
      intro hcon
      rw [pyStrip_data] at hcon
      have := pyStripChars_getLast hcon
      exact absurd this (by decide)
    have hchn : ¬ ch = '\n' := by
      intro he
      rw [he] at hch
      exact absurd hch (by decide)
    have hsplit0 : splitLinesPy (pyStrip y) = (splitLinesList (ch :: cst)).map String.mk := by
      unfold splitLinesPy
      rw [hd]
    obtain ⟨t0, ls0, hsplit⟩ :
        ∃ t0 ls0, splitLinesPy (pyStrip y) = String.mk (ch :: t0) :: ls0 := by
      rw [hsplit0]
      unfold splitLinesList
      simp only [hchn, if_false]
      cases splitLinesList cst with
      | nil => exact ⟨[], [], rfl⟩
      | cons l ls => exact ⟨l, ls.map String.mk, rfl⟩
    have hst : ¬ pyStrip (String.mk (ch :: t0)) = "" := by
      intro hcon
      rw [string_eq_empty_iff] at hcon
      exact pyStripChars_ne_nil_of_head hch hcon
    have hmeta : isMetaHeadLine (String.mk (ch :: t0)) = false := by
      unfold headLineNotMeta at h
      rw [hsplit] at h
      simpa using h
    have hta : strStartsWith (lowerStr (pyStrip (String.mk (ch :: t0)))) "tags:" = false := by
      unfold isMetaHeadLine at hmeta
      exact (Bool.or_eq_false_iff.1 hmeta).1
    have hdr : strStartsWith (lowerStr (pyStrip (String.mk (ch :: t0)))) "draft:" = false := by
      unfold isMetaHeadLine at hmeta
      exact (Bool.or_eq_false_iff.1 hmeta).2
    have hscan : scanMeta (splitLinesPy (pyStrip y)) [] false = (some 0, [], false) := by
      rw [hsplit]
      exact scanMeta_cons_other hst hta hdr ls0 [] false
    have hbody := extract_meta_body_eq (pyStrip y)
    rw [hscan] at hbody
    simp only [Option.getD_some, List.drop_zero] at hbody
    rw [joinLines_splitLinesPy _ hlast, pyStrip_idem] at hbody
    have htags : (extract_meta (pyStrip y)).tags = [] := by
      show (scanMeta (splitLinesPy (pyStrip y)) [] false).2.1 = []
      rw [hscan]
    have hdraft : (extract_meta (pyStrip y)).draft = false := by
      show (scanMeta (splitLinesPy (pyStrip y)) [] false).2.2 = false
      rw [hscan]
    have hsplitres : extract_meta (pyStrip y) =
        ⟨(extract_meta (pyStrip y)).body, (extract_meta (pyStrip y)).tags,
          (extract_meta (pyStrip y)).draft⟩ := rfl
    rw [hsplitres, hbody, htags, hdraft]

/-- C5 (amended): a second application of `extract_meta` leaves the body
unchanged and extracts empty tags and a false draft flag, provided the body
produced by the first application does not itself begin with a
`tags:` / `draft:` line.  (The second application's tags/draft equal the
first's only when the entry had no metadata at all.) -/
theorem extract_meta_second_pass (c : String)
    (h : headLineNotMeta (extract_meta c).body = true) :
    extract_meta ((extract_meta c).body) = ⟨(extract_meta c).body, [], false⟩ := by
  rw [extract_meta_body_eq c] at h ⊢
  exact extract_meta_of_stripped _ h

/-- Witness for the amended C5 at a concrete input. -/
theorem extract_meta_second_pass_witness :
    headLineNotMeta (extract_meta "tags: a\nBody text").body = true ∧
    extract_meta ((extract_meta "tags: a\nBody text").body) =
      ⟨(extract_meta "tags: a\nBody text").body, [], false⟩ :=
  ⟨by decide, extract_meta_second_pass "tags: a\nBody text" (by decide)⟩

/-- C5 counterexample: metadata extraction is not idempotent as claimed — on
`"tags: a\n\ntags: b\nx"` the first pass stops at the blank line leaving a
second `tags:` line in the body, and the second pass strips it, changing both
the body and the extracted tags. -/
theorem extract_meta_not_idempotent :
    extract_meta ((extract_meta "tags: a\n\ntags: b\nx").body) ≠
      extract_meta "tags: a\n\ntags: b\nx" := by decide

/-! ### C1: entry count and reconstruction for `parse_month_file` -/

/-- Number of lines matching the date-heading pattern. -/
def countHeadings (ls : List String) : Nat :=
  ls.countP (fun l => (headingMatch l).isSome)

/-- The canonical heading line of an entry: its markers, one space, its
date. -/
def canonHeadingLine (lvl : Nat) (d : String) : String :=
  String.mk (List.replicate lvl '#' ++ ' ' :: d.data)

/-- Concatenation of each entry's heading line followed by its body lines —
the reconstruction the claim speaks about, at line level. -/
def reconLines (es : List RawEntry) : List String :=
  (es.map (fun e => canonHeadingLine e.headingLevel e.date :: splitLinesPy e.contentMd)).flatten

/-- The original file minus the dropped top-level `"# "` title lines (the
parser only drops them before the first date heading). -/
def dropTitles : List String → List String
  | [] => []
  | l :: rest =>
    match headingMatch l with
    | some _ => l :: rest
    | none => if strStartsWith l "# " then dropTitles rest else l :: rest

/-- A body segment survives the join–strip–split round trip unchanged. -/
def segOK (acc : List String) : Bool :=
  decide (splitLinesPy (pyStrip (joinLines acc)) = acc)

/-- A heading line written in canonical form. -/
def isCanonHeading (l : String) : Bool :=
  match headingMatch l with
  | some (lvl, d) => decide (l = canonHeadingLine lvl d)
  | none => false

/-- All heading lines from here on are canonical and every body segment
(seeded with `acc`) is trim-stable. -/
def segsClean : List String → List String → Bool
  | acc, [] => segOK acc
  | acc, l :: rest =>
    match headingMatch l with
    | some _ => isCanonHeading l && segOK acc && segsClean [] rest
    | none => segsClean (acc ++ [l]) rest

/-- A month file is clean for reconstruction: every line before the first
date heading is a dropped `"# "` title line, headings are canonical, and
body segments are trim-stable. -/
def cleanMonthLines : List String → Bool
  | [] => true
  | l :: rest =>
    match headingMatch l with
    | some _ => isCanonHeading l && segsClean [] rest
    | none => strStartsWith l "# " && cleanMonthLines rest

/-- `parseAux` on a heading line with no open entry. -/
theorem parseAux_cons_heading_none {l : String} {lvl : Nat} {d : String}
    (hm : headingMatch l = some (lvl, d)) (acc rest) :
    parseAux none acc (l :: rest) = parseAux (some (lvl, d)) acc rest := by
  simp only [parseAux]
  rw [hm]

/-- `parseAux` on a heading line with an open entry: flush. -/
theorem parseAux_cons_heading_some {l : String} {lvl : Nat} {d : String}
    (hm : headingMatch l = some (lvl, d)) (plvl : Nat) (pd : String) (acc rest) :
    parseAux (some (plvl, pd)) acc (l :: rest) =
      ⟨pd, plvl, pyStrip (joinLines acc)⟩ :: parseAux (some (lvl, d)) [] rest := by
  simp only [parseAux]
  rw [hm]

/-- `parseAux` drops a title line before the first heading. -/
theorem parseAux_cons_title {l : String} (hm : headingMatch l = none)
    (hs : strStartsWith l "# " = true) (acc rest) :
    parseAux none acc (l :: rest) = parseAux none acc rest := by
  simp only [parseAux]
  rw [hm]
  simp [hs]

/-- `parseAux` accumulates a stray body line before the first heading. -/
theorem parseAux_cons_stray {l : String} (hm : headingMatch l = none)
    (hs : strStartsWith l "# " = false) (acc rest) :
    parseAux none acc (l :: rest) = parseAux none (acc ++ [l]) rest := by
  simp only [parseAux]
  rw [hm]
  simp [hs]

/-- `parseAux` accumulates a body line of the open entry. -/
theorem parseAux_cons_body {l : String} (hm : headingMatch l = none)
    (c : Nat × String) (acc rest) :
    parseAux (some c) acc (l :: rest) = parseAux (some c) (acc ++ [l]) rest := by
  simp only [parseAux]
  rw [hm]

/-- C1a: `parseAux` produces one entry per heading line, plus the open one. -/
theorem parseAux_length : ∀ (ls : List String) (cur : Option (Nat × String))
    (acc : List String),
    (parseAux cur acc ls).length = countHeadings ls + (if cur.isSome then 1 else 0) := by
  intro ls
  induction ls with
  | nil =>
    intro cur acc
    cases cur with
    | none => simp [parseAux, countHeadings]
    | some c =>
      cases c with
      | mk lvl d => simp [parseAux, countHeadings]
  | cons l rest ih =>
    intro cur acc
    have hcount : countHeadings (l :: rest) =
        countHeadings rest + (if (headingMatch l).isSome then 1 else 0) := by
      simp [countHeadings, List.countP_cons]
    cases hm : headingMatch l with
    | some p =>
      cases p with
      | mk lvl d =>
        cases cur with
        | none =>
          rw [parseAux_cons_heading_none hm acc rest, ih, hcount, hm]
          simp
        | some c =>
          cases c with
          | mk plvl pd =>
            rw [parseAux_cons_heading_some hm plvl pd acc rest]
            simp only [List.length_cons, ih, hcount, hm]
            simp
    | none =>
      cases cur with
      | none =>
        by_cases hs : strStartsWith l "# " = true
        · rw [parseAux_cons_title hm hs acc rest, ih, hcount, hm]
          simp
        · rw [parseAux_cons_stray hm (by simpa using hs) acc rest, ih, hcount, hm]
          simp
      | some c =>
        rw [parseAux_cons_body hm c acc rest, ih, hcount, hm]
        simp

/-- `segsClean` on a heading line. -/
theorem segsClean_cons_heading {l : String} {p : Nat × String}
    (hm : headingMatch l = some p) (acc rest) :
    segsClean acc (l :: rest) = (isCanonHeading l && segOK acc && segsClean [] rest) := by
  simp only [segsClean]
  rw [hm]

/-- `segsClean` on a body line. -/
theorem segsClean_cons_body {l : String} (hm : headingMatch l = none) (acc rest) :
    segsClean acc (l :: rest) = segsClean (acc ++ [l]) rest := by
  simp only [segsClean]
  rw [hm]

/-- A canonical heading line is what `canonHeadingLine` rebuilds from its
match. -/
theorem isCanonHeading_eq {l : String} {lvl : Nat} {d : String}
    (hm : headingMatch l = some (lvl, d)) (hc : isCanonHeading l = true) :
    l = canonHeadingLine lvl d := by
  unfold isCanonHeading at hc
  rw [hm] at hc
  simpa using hc

/-- C1b core: over a clean suffix, parsing then reconstructing restores the
heading and all following lines. -/
theorem parseAux_recon : ∀ (ls : List String) (lvl : Nat) (d : String)
    (acc : List String), segsClean acc ls = true →
    reconLines (parseAux (some (lvl, d)) acc ls) =
      canonHeadingLine lvl d :: (acc ++ ls) := by
  intro ls
  induction ls with
  | nil =>
    intro lvl d acc h
    have hseg : splitLinesPy (pyStrip (joinLines acc)) = acc := by
      have := h
      unfold segsClean segOK at this
      simpa using this
    show reconLines [⟨d, lvl, pyStrip (joinLines acc)⟩] = canonHeadingLine lvl d :: (acc ++ [])
    unfold reconLines
    simp [hseg]
  | cons l rest ih =>
    intro lvl d acc h
    cases hm : headingMatch l with
    | some p =>
      cases p with
      | mk lvl2 d2 =>
        rw [segsClean_cons_heading hm acc rest] at h
        simp only [Bool.and_eq_true] at h
        obtain ⟨⟨hcanon, hseg⟩, hrest⟩ := h
        have hsegeq : splitLinesPy (pyStrip (joinLines acc)) = acc := by
          unfold segOK at hseg
          simpa using hseg
        rw [parseAux_cons_heading_some hm lvl d acc rest]
        have hihres := ih lvl2 d2 [] hrest
        unfold reconLines at hihres ⊢
        simp only [List.map_cons, List.flatten_cons]
        rw [hihres]
        simp only [List.nil_append] at hihres ⊢
        rw [hsegeq, isCanonHeading_eq hm hcanon]
        simp
    | none =>
      rw [segsClean_cons_body hm acc rest] at h
      rw [parseAux_cons_body hm (lvl, d) acc rest]
      rw [ih lvl d (acc ++ [l]) h]
      simp

/-- C1b top level: on a clean file, reconstruction restores the original
lines minus the dropped title lines. -/
theorem parseAux_recon_top : ∀ ls : List String, cleanMonthLines ls = true →
    reconLines (parseAux none [] ls) = dropTitles ls := by
  intro ls
  induction ls with
  | nil => intro _; rfl
  | cons l rest ih =>
    intro h
    cases hm : headingMatch l with
    | some p =>
      cases p with
      | mk lvl d =>
        unfold cleanMonthLines at h
        rw [hm] at h
        simp only [Bool.and_eq_true] at h
        obtain ⟨hcanon, hrest⟩ := h
        rw [parseAux_cons_heading_none hm [] rest]
        rw [parseAux_recon rest lvl d [] hrest]
        unfold dropTitles
        rw [hm, ← isCanonHeading_eq hm hcanon]
        simp
    | none =>
      unfold cleanMonthLines at h
      rw [hm] at h
      simp only [Bool.and_eq_true] at h
      obtain ⟨hs, hrest⟩ := h
      rw [parseAux_cons_title hm hs [] rest, ih hrest]
      have hdt : dropTitles (l :: rest) = dropTitles rest := by
        simp only [dropTitles]
        rw [hm]
        simp [hs]
      rw [hdt]

/-- C1 (amended): `parse_month_file` returns exactly one entry per
date-heading line for every input; and when every line before the first date
heading is a dropped `"# "` title line, every heading is in canonical form,
and each entry's raw body is unchanged by trimming, concatenating each
entry's heading line followed by its body lines reproduces the file minus
the dropped title lines. -/
theorem parse_month_file_count_recon (text : String) :
    (parse_month_file text).length = countHeadings (splitLinesPy text) ∧
    (cleanMonthLines (splitLinesPy text) = true →
      reconLines (parse_month_file text) = dropTitles (splitLinesPy text)) := by
  constructor
  · have := parseAux_length (splitLinesPy text) none []
    simpa [parse_month_file] using this
  · intro h
    exact parseAux_recon_top (splitLinesPy text) h

/-- Witness for C1 at a concrete clean input with a dropped title line. -/
theorem parse_month_file_count_recon_witness :
    cleanMonthLines (splitLinesPy "# T\n## 2024-01-02\nHello") = true ∧
    (parse_month_file "# T\n## 2024-01-02\nHello").length =
      countHeadings (splitLinesPy "# T\n## 2024-01-02\nHello") ∧
    reconLines (parse_month_file "# T\n## 2024-01-02\nHello") =
      dropTitles (splitLinesPy "# T\n## 2024-01-02\nHello") :=
  ⟨by decide, (parse_month_file_count_recon "# T\n## 2024-01-02\nHello").1,
    (parse_month_file_count_recon "# T\n## 2024-01-02\nHello").2 (by decide)⟩

/-- C1 counterexample: as stated, reconstruction fails — blank lines inside
an entry are trimmed away by the parser, so heading-plus-body concatenation
does not reproduce the original file. -/
theorem parse_month_file_recon_cex :
    reconLines (parse_month_file "## 2024-01-02\n\nHello") ≠
      dropTitles (splitLinesPy "## 2024-01-02\n\nHello") := by decide

/-! ### Lemmas about the stable sort -/

section sortLemmas

variable {α : Type} (le : α → α → Bool)

/-- Membership through `insertLeB`. -/
theorem mem_insertLeB (x a : α) : ∀ l : List α, a ∈ insertLeB le x l ↔ a = x ∨ a ∈ l := by
  intro l
  induction l with
  | nil => simp [insertLeB]
  | cons y ys ih =>
    unfold insertLeB
    by_cases hle : le x y = true
    · rw [if_pos hle]
      simp
    · rw [if_neg hle]
      simp only [List.mem_cons, ih]
      tauto

/-- Membership through `sortLeB`. -/
theorem mem_sortLeB (a : α) : ∀ l : List α, a ∈ sortLeB le l ↔ a ∈ l := by
  intro l
  induction l with
  | nil => simp [sortLeB]
  | cons x xs ih =>
    unfold sortLeB
    rw [mem_insertLeB, ih]
    simp

/-- `insertLeB` preserves sortedness for a total, transitive comparison. -/
theorem pairwise_insertLeB
    (htot : ∀ a b, le a b = true ∨ le b a = true)
    (htrans : ∀ a b c, le a b = true → le b c = true → le a c = true)
    (x : α) : ∀ l : List α, List.Pairwise (fun a b => le a b = true) l →
      List.Pairwise (fun a b => le a b = true) (insertLeB le x l) := by
  intro l
  induction l with
  | nil => intro _; simp [insertLeB]
  | cons y ys ih =>
    intro h
    rw [List.pairwise_cons] at h
    obtain ⟨hy, hys⟩ := h
    unfold insertLeB
    by_cases hle : le x y = true
    · rw [if_pos hle]
      rw [List.pairwise_cons]
      refine ⟨?_, List.pairwise_cons.2 ⟨hy, hys⟩⟩
      intro z hz
      rcases List.mem_cons.1 hz with h1 | h1
      · rw [h1]; exact hle
      · exact htrans x y z hle (hy z h1)
    · rw [if_neg hle]
      rw [List.pairwise_cons]
      constructor
      · intro z hz
        rcases (mem_insertLeB le x z ys).1 hz with h1 | h1
        · rw [h1]
          rcases htot x y with h2 | h2
          · exact absurd h2 hle
          · exact h2
        · exact hy z h1
      · exact ih hys

/-- `sortLeB` sorts, for a total, transitive comparison. -/
theorem pairwise_sortLeB
    (htot : ∀ a b, le a b = true ∨ le b a = true)
    (htrans : ∀ a b c, le a b = true → le b c = true → le a c = true) :
    ∀ l : List α, List.Pairwise (fun a b => le a b = true) (sortLeB le l) := by
  intro l
  induction l with
  | nil => simp [sortLeB]
  | cons x xs ih => exact pairwise_insertLeB le htot htrans x _ ih

/-- Stability of `insertLeB` with respect to a tie class `q`: elements of one
tie class keep their relative order, provided tied elements always compare
`le` both ways. -/
theorem filter_insertLeB (q : α → Bool)
    (hq : ∀ a b, q a = true → q b = true → le a b = true) (x : α) :
    ∀ l : List α, (insertLeB le x l).filter q = ((x :: l).filter q) := by
  intro l
  induction l with
  | nil => rfl
  | cons y ys ih =>
    unfold insertLeB
    by_cases hle : le x y = true
    · rw [if_pos hle]
    · rw [if_neg hle]
      by_cases hqx : q x = true
      · by_cases hqy : q y = true
        · exact absurd (hq x y hqx hqy) hle
        · have hqy2 : q y = false := by simpa using hqy
          rw [List.filter_cons_of_neg (by simp [hqy2]), ih,
            List.filter_cons_of_pos hqx, List.filter_cons_of_pos hqx,
            List.filter_cons_of_neg (by simp [hqy2])]
      · have hqx2 : q x = false := by simpa using hqx
        by_cases hqy : q y = true
        · rw [List.filter_cons_of_pos hqy, ih, List.filter_cons_of_neg (by simp [hqx2]),
            List.filter_cons_of_neg (by simp [hqx2]), List.filter_cons_of_pos hqy]
        · have hqy2 : q y = false := by simpa using hqy
          rw [List.filter_cons_of_neg (by simp [hqy2]), ih,
            List.filter_cons_of_neg (by simp [hqx2]), List.filter_cons_of_neg (by simp [hqx2]),
            List.filter_cons_of_neg (by simp [hqy2])]

/-- Stability of `sortLeB`: each tie class appears in its original order. -/
theorem filter_sortLeB (q : α → Bool)
    (hq : ∀ a b, q a = true → q b = true → le a b = true) :
    ∀ l : List α, (sortLeB le l).filter q = l.filter q := by
  intro l
  induction l with
  | nil => rfl
  | cons x xs ih =>
    unfold sortLeB
    rw [filter_insertLeB le q hq x]
    by_cases hqx : q x = true
    · rw [List.filter_cons_of_pos hqx, List.filter_cons_of_pos hqx, ih]
    · have hqx2 : q x = false := by simpa using hqx
      rw [List.filter_cons_of_neg (by simp [hqx2]), List.filter_cons_of_neg (by simp [hqx2]), ih]

/-- `insertLeB` commutes with a comparison-preserving map. -/
theorem insertLeB_map (f : α → α) (hle : ∀ a b, le (f a) (f b) = le a b) (x : α) :
    ∀ l : List α, insertLeB le (f x) (l.map f) = (insertLeB le x l).map f := by
  intro l
  induction l with
  | nil => rfl
  | cons y ys ih =>
    show insertLeB le (f x) (f y :: ys.map f) = _
    unfold insertLeB
    rw [hle]
    by_cases h : le x y = true
    · rw [if_pos h, if_pos h]
      rfl
    · rw [if_neg h, if_neg h]
      rw [ih]
      rfl

/-- `sortLeB` commutes with a comparison-preserving map. -/
theorem sortLeB_map (f : α → α) (hle : ∀ a b, le (f a) (f b) = le a b) :
    ∀ l : List α, sortLeB le (l.map f) = (sortLeB le l).map f := by
  intro l
  induction l with
  | nil => rfl
  | cons x xs ih =>
    show insertLeB le (f x) ((sortLeB le (xs.map f))) = _
    rw [ih]
    exact insertLeB_map le f hle x (sortLeB le xs)

end sortLemmas

/-- Membership through `pySortByKey`. -/
theorem mem_pySortByKey {α : Type} (k : α → Nat) (rev : Bool) (a : α) (l : List α) :
    a ∈ pySortByKey k rev l ↔ a ∈ l :=
  mem_sortLeB _ a l

/-- A descending Python sort is sorted newest-first. -/
theorem pySortByKey_sorted_desc {α : Type} (k : α → Nat) (l : List α) :
    List.Pairwise (fun a b => k b ≤ k a) (pySortByKey k true l) := by
  have h := pairwise_sortLeB (fun a b : α => decide (k b ≤ k a))
    (fun a b => by
      rcases Nat.le_total (k b) (k a) with h | h
      · exact Or.inl (by simpa using h)
      · exact Or.inr (by simpa using h))
    (fun a b c h1 h2 => by
      simp only [decide_eq_true_eq] at h1 h2 ⊢
      omega) l
  have h2 : pySortByKey k true l = sortLeB (fun a b : α => decide (k b ≤ k a)) l := rfl
  rw [h2]
  exact h.imp (fun hab => by simpa using hab)

/-- An ascending Python sort is sorted oldest-first. -/
theorem pySortByKey_sorted_asc {α : Type} (k : α → Nat) (l : List α) :
    List.Pairwise (fun a b => k a ≤ k b) (pySortByKey k false l) := by
  have h := pairwise_sortLeB (fun a b : α => decide (k a ≤ k b))
    (fun a b => by
      rcases Nat.le_total (k a) (k b) with h | h
      · exact Or.inl (by simpa using h)
      · exact Or.inr (by simpa using h))
    (fun a b c h1 h2 => by
      simp only [decide_eq_true_eq] at h1 h2 ⊢
      omega) l
  have h2 : pySortByKey k false l = sortLeB (fun a b : α => decide (k a ≤ k b)) l := rfl
  rw [h2]
  exact h.imp (fun hab => by simpa using hab)

/-- Stability of the Python sort: entries with equal keys keep their original
relative order, in either direction. -/
theorem pySortByKey_filter {α : Type} (k : α → Nat) (rev : Bool) (t : Nat) (l : List α) :
    (pySortByKey k rev l).filter (fun a => decide (k a = t)) =
      l.filter (fun a => decide (k a = t)) := by
  apply filter_sortLeB
  intro a b ha hb
  simp only [decide_eq_true_eq] at ha hb
  cases rev with
  | false => simp [ha, hb]
  | true => simp [ha, hb]

/-- The Python sort commutes with a key-preserving map. -/
theorem pySortByKey_map {α : Type} (k : α → Nat) (rev : Bool) (f : α → α)
    (hf : ∀ a, k (f a) = k a) (l : List α) :
    pySortByKey k rev (l.map f) = (pySortByKey k rev l).map f := by
  apply sortLeB_map
  intro a b
  cases rev with
  | false => simp [hf]
  | true => simp [hf]

/-! ### C2: ordering invariants of year buckets and tag buckets -/

/-- `collect_entries_by_year` skips a non-digit directory. -/
theorem collect_cons_skip {name : String} (h : isDigitName name = false)
    (files : List String) (rest : List (String × List String)) (order : String)
    (incl : Bool) :
    collect_entries_by_year ((name, files) :: rest) order incl =
      collect_entries_by_year rest order incl := by
  simp only [collect_entries_by_year]
  rw [if_neg (by simp [h])]

/-- `collect_entries_by_year` on a digit-named directory. -/
theorem collect_cons_digit {name : String} (h : isDigitName name = true)
    (files : List String) (rest : List (String × List String)) (order : String)
    (incl : Bool) :
    collect_entries_by_year ((name, files) :: rest) order incl =
      (do
        let raw ← collectYearEntries incl name files
        let tail ← collect_entries_by_year rest order incl
        if raw.isEmpty then pure tail
        else pure ((name, pySortByKey dtKey (order == "reverse") raw) :: tail)) := by
  simp only [collect_entries_by_year]
  rw [if_pos h]

/-- Provenance of a year bucket: every bucket in the result is the stably
sorted raw entry list of a tree directory of the same name. -/
theorem collect_bucket_spec : ∀ (tree : List (String × List String)) (order : String)
    (incl : Bool) (yi : List (String × List Entry)),
    collect_entries_by_year tree order incl = some yi →
    ∀ p ∈ yi, ∃ files raw, (p.1, files) ∈ tree ∧
      collectYearEntries incl p.1 files = some raw ∧
      p.2 = pySortByKey dtKey (order == "reverse") raw := by
  intro tree
  induction tree with
  | nil =>
    intro order incl yi h p hp
    simp only [collect_entries_by_year, Option.some_inj] at h
    rw [← h] at hp
    exact absurd hp (List.not_mem_nil p)
  | cons head rest ih =>
    obtain ⟨name, files⟩ := head
    intro order incl yi h p hp
    by_cases hd : isDigitName name = true
    · rw [collect_cons_digit hd] at h
      cases hraw : collectYearEntries incl name files with
      | none =>
        rw [hraw] at h
        simp at h
      | some raw =>
        rw [hraw] at h
        cases htail : collect_entries_by_year rest order incl with
        | none =>
          rw [htail] at h
          simp at h
        | some tail =>
          rw [htail] at h
          have h2 : (if raw.isEmpty = true
                then (some tail : Option (List (String × List Entry)))
                else some ((name, pySortByKey dtKey (order == "reverse") raw) :: tail)) =
              some yi := h
          by_cases hemp : raw.isEmpty = true
          · rw [if_pos hemp] at h2
            simp only [Option.some_inj] at h2
            rw [← h2] at hp
            obtain ⟨files2, raw2, hmem, hr2, hs2⟩ := ih order incl tail htail p hp
            exact ⟨files2, raw2, List.mem_cons_of_mem _ hmem, hr2, hs2⟩
          · rw [if_neg hemp] at h2
            simp only [Option.some_inj] at h2
            rw [← h2] at hp
            rcases List.mem_cons.1 hp with heq | hin
            · refine ⟨files, raw, ?_, ?_, ?_⟩
              · rw [heq]
                exact List.mem_cons_self _ _
              · rw [heq]
                exact hraw
              · rw [heq]
            · obtain ⟨files2, raw2, hmem, hr2, hs2⟩ := ih order incl tail htail p hin
              exact ⟨files2, raw2, List.mem_cons_of_mem _ hmem, hr2, hs2⟩
    · have hd2 : isDigitName name = false := by simpa using hd
      rw [collect_cons_skip hd2] at h
      obtain ⟨files2, raw2, hmem, hr2, hs2⟩ := ih order incl yi h p hp
      exact ⟨files2, raw2, List.mem_cons_of_mem _ hmem, hr2, hs2⟩

/-- Every tag bucket is sorted newest-first by construction. -/
theorem build_tag_index_sorted (yi : List (String × List Entry)) :
    ∀ q ∈ build_tag_index yi,
      List.Pairwise (fun a b : Entry => dtKey b ≤ dtKey a) q.2.entries := by
  intro q hq
  unfold build_tag_index at hq
  rw [List.mem_map] at hq
  obtain ⟨r, _, hr⟩ := hq
  rw [← hr]
  exact pySortByKey_sorted_desc dtKey r.2.entries

/-- C2: tag buckets are always sorted newest-first regardless of the
configured order; year buckets are sorted by timestamp in the configured
direction (`reverse` = newest first, `chronological` = oldest first); and
same-date ties keep the order in which files were enumerated (the sort is
stable). -/
theorem order_invariants (tree : List (String × List String)) (order : String)
    (incl : Bool) (yi : List (String × List Entry))
    (h : collect_entries_by_year tree order incl = some yi) :
    (∀ q ∈ build_tag_index yi,
      List.Pairwise (fun a b : Entry => dtKey b ≤ dtKey a) q.2.entries) ∧
    (∀ p ∈ yi,
      (order = "reverse" → List.Pairwise (fun a b : Entry => dtKey b ≤ dtKey a) p.2) ∧
      (order = "chronological" → List.Pairwise (fun a b : Entry => dtKey a ≤ dtKey b) p.2) ∧
      ∃ files raw, (p.1, files) ∈ tree ∧ collectYearEntries incl p.1 files = some raw ∧
        p.2 = pySortByKey dtKey (order == "reverse") raw ∧
        ∀ t : Nat, p.2.filter (fun e => decide (dtKey e = t)) =
          raw.filter (fun e => decide (dtKey e = t))) := by
  constructor
  · exact build_tag_index_sorted yi
  · intro p hp
    obtain ⟨files, raw, hmem, hraw, hsort⟩ := collect_bucket_spec tree order incl yi h p hp
    refine ⟨?_, ?_, files, raw, hmem, hraw, hsort, ?_⟩
    · intro hrev
      rw [hsort, hrev]
      have hb : (("reverse" == "reverse") : Bool) = true := by decide
      rw [hb]
      exact pySortByKey_sorted_desc dtKey raw
    · intro hchr
      rw [hsort, hchr]
      have hb : (("chronological" == "reverse") : Bool) = false := by decide
      rw [hb]
      exact pySortByKey_sorted_asc dtKey raw
    · intro t
      rw [hsort]
      exact pySortByKey_filter dtKey _ t raw

/-- Witness for C2: a concrete two-entry year is returned newest-first under
the `reverse` order. -/
theorem order_invariants_witness :
    collect_entries_by_year [("2024", ["## 2024-01-02\nA\n\n## 2024-01-05\nB"])]
        "reverse" false =
      some [("2024", [⟨"2024-01-05", 2, "B", [], false, "2024", 2024, 1, 5⟩,
                      ⟨"2024-01-02", 2, "A", [], false, "2024", 2024, 1, 2⟩])] ∧
    List.Pairwise (fun a b : Entry => dtKey b ≤ dtKey a)
      [⟨"2024-01-05", 2, "B", [], false, "2024", 2024, 1, 5⟩,
       ⟨"2024-01-02", 2, "A", [], false, "2024", 2024, 1, 2⟩] := by
  have hcol : collect_entries_by_year [("2024", ["## 2024-01-02\nA\n\n## 2024-01-05\nB"])]
      "reverse" false =
      some [("2024", [⟨"2024-01-05", 2, "B", [], false, "2024", 2024, 1, 5⟩,
                      ⟨"2024-01-02", 2, "A", [], false, "2024", 2024, 1, 2⟩])] := by
    decide
  refine ⟨hcol, ?_⟩
  have h := (order_invariants _ "reverse" false _ hcol).2
    ("2024", [⟨"2024-01-05", 2, "B", [], false, "2024", 2024, 1, 5⟩,
              ⟨"2024-01-02", 2, "A", [], false, "2024", 2024, 1, 2⟩])
    (List.mem_singleton.2 rfl)
  exact h.1 rfl

/-! ### C6: the on-this-day page -/

/-- C6: the on-this-day matches are exactly the surviving entries whose
month/day equal the build date's, drawn from all year buckets, sorted
newest-first; an empty match list renders the distinct no-matches message
(which is not the empty string); and on the spec's concrete example (years
2023 and 2024, both with an entry dated 03-10, reference date March 10) both
entries appear, 2024 before 2023. -/
theorem on_this_day_spec (yi : List (String × List Entry)) (mm dd : Nat)
    (renderE : Entry → String) :
    (∀ e : Entry, e ∈ onThisDayMatches yi mm dd ↔
      ∃ p, p ∈ yi ∧ e ∈ p.2 ∧ e.dtM = mm ∧ e.dtD = dd) ∧
    List.Pairwise (fun a b : Entry => dtKey b ≤ dtKey a) (onThisDayMatches yi mm dd) ∧
    (onThisDayMatches yi mm dd = [] →
      onThisDayArticles renderE (onThisDayMatches yi mm dd) = noMatchesMsg) ∧
    noMatchesMsg ≠ "" ∧
    ((collect_entries_by_year
        [("2023", ["## 2023-03-10\nAlpha"]), ("2024", ["## 2024-03-10\nBeta"])]
        "reverse" false).map
      (fun yi2 => (onThisDayMatches yi2 3 10).map (fun e => e.date)) =
      some ["2024-03-10", "2023-03-10"]) := by
  refine ⟨?_, ?_, ?_, by decide, by decide⟩
  · intro e
    unfold onThisDayMatches
    rw [mem_pySortByKey]
    rw [List.mem_flatten]
    constructor
    · rintro ⟨l, hl, hel⟩
      rw [List.mem_map] at hl
      obtain ⟨p, hp, hpl⟩ := hl
      rw [← hpl] at hel
      rw [List.mem_filter] at hel
      obtain ⟨hep, hcond⟩ := hel
      simp only [Bool.and_eq_true, beq_iff_eq] at hcond
      exact ⟨p, hp, hep, hcond.1, hcond.2⟩
    · rintro ⟨p, hp, hep, hm, hd⟩
      refine ⟨p.2.filter (fun e => e.dtM == mm && e.dtD == dd), ?_, ?_⟩
      · rw [List.mem_map]
        exact ⟨p, hp, rfl⟩
      · rw [List.mem_filter]
        refine ⟨hep, ?_⟩
        simp [hm, hd]
  · exact pySortByKey_sorted_desc dtKey _
  · intro h
    rw [h]
    rfl

/-- Witness for C6 at the empty index: no matches renders the no-matches
message. -/
theorem on_this_day_spec_witness :
    onThisDayMatches [] 3 10 = [] ∧
    onThisDayArticles (fun e => e.date) (onThisDayMatches [] 3 10) = noMatchesMsg :=
  ⟨by decide, (on_this_day_spec [] 3 10 (fun e => e.date)).2.2.1 (by decide)⟩

/-! ### C7: the tag directory page -/

/-- The first raw tag text, in index iteration order, whose slug is the
given one. -/
def firstSeenName (yi : List (String × List Entry)) (slug : String) : Option String :=
  ((tagOccurrences yi).find? (fun te => slugify_tag te.1 == slug)).map (fun te => te.1)

/-- Membership of a pair in `addTag`: either it was already present (with its
display name unchanged), or it is the newly created bucket. -/
theorem addTag_mem_name : ∀ (m : List (String × TagData)) (slug tag : String)
    (e : Entry) (s : String) (d : TagData), (s, d) ∈ addTag m slug tag e →
    (∃ d0, (s, d0) ∈ m ∧ d0.name = d.name) ∨
      (s = slug ∧ d.name = tag ∧ ¬ s ∈ m.map (fun r => r.1)) := by
  intro m
  induction m with
  | nil =>
    intro slug tag e s d h
    simp only [addTag, List.mem_singleton] at h
    rw [Prod.mk.injEq] at h
    right
    exact ⟨h.1, by rw [h.2], by simp⟩
  | cons hd0 rest ih =>
    obtain ⟨s0, d0⟩ := hd0
    intro slug tag e s d h
    unfold addTag at h
    by_cases hs0 : s0 = slug
    · rw [if_pos hs0] at h
      rcases List.mem_cons.1 h with h1 | h1
      · rw [Prod.mk.injEq] at h1
        left
        exact ⟨d0, by rw [h1.1]; exact List.mem_cons_self _ _, by rw [h1.2]⟩
      · left
        exact ⟨d, List.mem_cons_of_mem _ h1, rfl⟩
    · rw [if_neg hs0] at h
      rcases List.mem_cons.1 h with h1 | h1
      · rw [Prod.mk.injEq] at h1
        left
        exact ⟨d0, by rw [h1.1]; exact List.mem_cons_self _ _, by rw [h1.2]⟩
      · rcases ih slug tag e s d h1 with h2 | h2
        · obtain ⟨dd, hdd, hname⟩ := h2
          exact Or.inl ⟨dd, List.mem_cons_of_mem _ hdd, hname⟩
        · right
          refine ⟨h2.1, h2.2.1, ?_⟩
          simp only [List.map_cons, List.mem_cons]
          rintro (hk | hk)
          · exact hs0 (by rw [← hk, h2.1])
          · exact h2.2.2 hk
/-- Key membership after `addTag`. -/
theorem addTag_mem_key : ∀ (m : List (String × TagData)) (slug tag : String)
    (e : Entry) (s : String),
    s ∈ (addTag m slug tag e).map (fun r => r.1) ↔
      s ∈ m.map (fun r => r.1) ∨ s = slug := by
  intro m
  induction m with
  | nil =>
    intro slug tag e s
    simp [addTag]
  | cons hd0 rest ih =>
    obtain ⟨s0, d0⟩ := hd0
    intro slug tag e s
    unfold addTag
    by_cases hs0 : s0 = slug
    · rw [if_pos hs0]
      simp only [List.map_cons, List.mem_cons]
      constructor
      · rintro (h | h)
        · exact Or.inl (Or.inl h)
        · exact Or.inl (Or.inr h)
      · rintro ((h | h) | h)
        · exact Or.inl h
        · exact Or.inr h
        · exact Or.inl (by rw [h, ← hs0])
    · rw [if_neg hs0]
      simp only [List.map_cons, List.mem_cons, ih]
      tauto

/-- Display names in the folded tag map come from the first occurrence of
their slug. -/
theorem rawTagMap_fold_name : ∀ (occs : List (String × Entry))
    (m : List (String × TagData)) (q : String × TagData),
    q ∈ occs.foldl (fun m te => addTag m (slugify_tag te.1) te.1 te.2) m →
    (∃ d, (q.1, d) ∈ m ∧ d.name = q.2.name) ∨
      ((¬ q.1 ∈ m.map (fun r => r.1)) ∧
        ∃ te, occs.find? (fun te => slugify_tag te.1 == q.1) = some te ∧
          q.2.name = te.1) := by
  intro occs
  induction occs with
  | nil =>
    intro m q h
    simp only [List.foldl_nil] at h
    left
    exact ⟨q.2, by rw [Prod.mk.eta]; exact h, rfl⟩
  | cons te rest ih =>
    intro m q h
    simp only [List.foldl_cons] at h
    rcases ih (addTag m (slugify_tag te.1) te.1 te.2) q h with h1 | h1
    · obtain ⟨d, hd, hname⟩ := h1
      rcases addTag_mem_name m (slugify_tag te.1) te.1 te.2 q.1 d hd with h2 | h2
      · obtain ⟨d0, hd0, hn0⟩ := h2
        exact Or.inl ⟨d0, hd0, by rw [hn0, hname]⟩
      · right
        refine ⟨h2.2.2, te, ?_, by rw [← hname, h2.2.1]⟩
        rw [List.find?_cons_of_pos]
        simp [h2.1]
    · obtain ⟨hnk, te2, hfind, hname⟩ := h1
      have hq1 : ¬ q.1 ∈ m.map (fun r => r.1) := by
        intro hc
        exact hnk ((addTag_mem_key m (slugify_tag te.1) te.1 te.2 q.1).2 (Or.inl hc))
      have hqslug : ¬ q.1 = slugify_tag te.1 := by
        intro hc
        exact hnk ((addTag_mem_key m (slugify_tag te.1) te.1 te.2 q.1).2 (Or.inr hc))
      right
      refine ⟨hq1, te2, ?_, hname⟩
      rw [List.find?_cons_of_neg]
      · exact hfind
      · simp
        intro hc
        exact absurd hc.symm hqslug

/-- C7: the tag directory items enumerate exactly the slugs of the tag index,
each with its first-seen display name and its bucket's entry count, in
case-insensitive ascending order of display name. -/
theorem tag_directory_spec (yi : List (String × List Entry)) :
    (∀ s nm c, (s, nm, c) ∈ tag_index_items (build_tag_index yi) ↔
      ∃ d, (s, d) ∈ build_tag_index yi ∧ nm = d.name ∧ c = d.entries.length) ∧
    (∀ q ∈ build_tag_index yi, firstSeenName yi q.1 = some q.2.name) ∧
    List.Pairwise (fun a b : String × String × Nat => lowerStr a.2.1 ≤ lowerStr b.2.1)
      (tag_index_items (build_tag_index yi)) := by
  refine ⟨?_, ?_, ?_⟩
  · intro s nm c
    unfold tag_index_items
    rw [List.mem_map]
    constructor
    · rintro ⟨q, hq, hfq⟩
      rw [mem_sortLeB] at hq
      rw [Prod.mk.injEq] at hfq
      obtain ⟨hs, hrest⟩ := hfq
      rw [Prod.mk.injEq] at hrest
      refine ⟨q.2, ?_, hrest.1.symm, hrest.2.symm⟩
      rw [← hs, Prod.mk.eta]
      exact hq
    · rintro ⟨d, hd, hnm, hc⟩
      refine ⟨(s, d), ?_, ?_⟩
      · rw [mem_sortLeB]
        exact hd
      · rw [hnm, hc]
  · intro q hq
    unfold build_tag_index at hq
    rw [List.mem_map] at hq
    obtain ⟨r, hr, hrq⟩ := hq
    have hq1 : q.1 = r.1 := by rw [← hrq]
    have hqname : q.2.name = r.2.name := by rw [← hrq]
    rcases rawTagMap_fold_name (tagOccurrences yi) [] r hr with h1 | h1
    · obtain ⟨d, hd, _⟩ := h1
      exact absurd hd (List.not_mem_nil _)
    · obtain ⟨_, te, hfind, hname⟩ := h1
      unfold firstSeenName
      rw [hq1, hfind]
      simp [hqname, hname]
  · unfold tag_index_items
    have hsorted := pairwise_sortLeB
      (fun a b : String × TagData => decide (lowerStr a.2.name ≤ lowerStr b.2.name))
      (fun a b => by
        rcases le_total (lowerStr a.2.name) (lowerStr b.2.name) with h | h
        · exact Or.inl (by simpa using h)
        · exact Or.inr (by simpa using h))
      (fun a b c h1 h2 => by
        simp only [decide_eq_true_eq] at h1 h2 ⊢
        exact le_trans h1 h2)
      (build_tag_index yi)
    apply hsorted.map
    intro a b hab
    simpa using hab

/-- Witness for C7 at a concrete index: the single bucket's display name is
the first-seen spelling. -/
theorem tag_directory_spec_witness :
    ("hiking", (⟨"Hiking", [⟨"2024-01-02", 2, "x", ["Hiking"], false, "2024", 2024, 1, 2⟩]⟩ : TagData)) ∈
      build_tag_index [("2024", [⟨"2024-01-02", 2, "x", ["Hiking"], false, "2024", 2024, 1, 2⟩])] ∧
    firstSeenName [("2024", [⟨"2024-01-02", 2, "x", ["Hiking"], false, "2024", 2024, 1, 2⟩])]
      "hiking" = some "Hiking" :=
  ⟨by decide,
    (tag_directory_spec [("2024", [⟨"2024-01-02", 2, "x", ["Hiking"], false, "2024", 2024, 1, 2⟩])]).2.1
      ("hiking", ⟨"Hiking", [⟨"2024-01-02", 2, "x", ["Hiking"], false, "2024", 2024, 1, 2⟩]⟩)
      (by decide)⟩

/-! ### C3: draft filtering -/

/-- An entry with its draft flag cleared — downstream artifact builders
cannot distinguish the two. -/
def stripDraft (e : Entry) : Entry := { e with draft := false }

/-- Clear the draft flag throughout a year index. -/
def stripDraftYI (yi : List (String × List Entry)) : List (String × List Entry) :=
  yi.map (fun p => (p.1, p.2.map stripDraft))

/-- Clear the draft flag throughout a tag index. -/
def stripTagIndex (ti : List (String × TagData)) : List (String × TagData) :=
  ti.map (fun q => (q.1, ⟨q.2.name, q.2.entries.map stripDraft⟩))

/-- `processMonthEntries` skips a draft when drafts are excluded. -/
theorem pme_cons_skip {r : RawEntry} {incl : Bool}
    (hd : ((extract_meta r.contentMd).draft && !incl) = true) (year : String)
    (rest : List RawEntry) :
    processMonthEntries incl year (r :: rest) = processMonthEntries incl year rest := by
  simp only [processMonthEntries]
  rw [if_pos hd]

/-- `processMonthEntries` keeps a surviving entry with a valid date. -/
theorem pme_cons_keep {r : RawEntry} {incl : Bool}
    (hd : ((extract_meta r.contentMd).draft && !incl) = false) {y mo dd : Nat}
    (hdate : parseDateYmd r.date = some (y, mo, dd)) (year : String)
    (rest : List RawEntry) :
    processMonthEntries incl year (r :: rest) =
      (processMonthEntries incl year rest).map
        (fun es => ⟨r.date, r.headingLevel, (extract_meta r.contentMd).body,
          (extract_meta r.contentMd).tags, (extract_meta r.contentMd).draft,
          year, y, mo, dd⟩ :: es) := by
  simp only [processMonthEntries]
  rw [if_neg (by simp [hd]), hdate]

/-- `processMonthEntries` fails on an invalid date of a surviving entry. -/
theorem pme_cons_bad {r : RawEntry} {incl : Bool}
    (hd : ((extract_meta r.contentMd).draft && !incl) = false)
    (hdate : parseDateYmd r.date = none) (year : String) (rest : List RawEntry) :
    processMonthEntries incl year (r :: rest) = none := by
  simp only [processMonthEntries]
  rw [if_neg (by simp [hd]), hdate]

/-- With drafts excluded, every produced entry has a false draft flag. -/
theorem processMonthEntries_draft_free (year : String) :
    ∀ (raws : List RawEntry) (es : List Entry),
      processMonthEntries false year raws = some es → ∀ e ∈ es, e.draft = false := by
  intro raws
  induction raws with
  | nil =>
    intro es h e he
    simp only [processMonthEntries, Option.some_inj] at h
    rw [← h] at he
    exact absurd he (List.not_mem_nil e)
  | cons r rest ih =>
    intro es h e he
    by_cases hd : (extract_meta r.contentMd).draft = true
    · rw [pme_cons_skip (by simp [hd]) year rest] at h
      exact ih es h e he
    · have hd2 : ((extract_meta r.contentMd).draft && !false) = false := by
        simp only [Bool.not_false, Bool.and_true]
        simpa using hd
      cases hdate : parseDateYmd r.date with
      | none =>
        rw [pme_cons_bad hd2 hdate year rest] at h
        exact absurd h (by simp)
      | some ymd =>
        obtain ⟨y, mo, dd⟩ := ymd
        rw [pme_cons_keep hd2 hdate year rest] at h
        cases hrest : processMonthEntries false year rest with
        | none =>
          rw [hrest] at h
          exact absurd h (by simp)
        | some es2 =>
          rw [hrest] at h
          simp only [Option.map_some', Option.some_inj] at h
          rw [← h] at he
          rcases List.mem_cons.1 he with h1 | h1
          · rw [h1]
            simpa using hd
          · exact ih es2 hrest e h1
/-- With drafts included, nothing is skipped: one entry per parsed record. -/
theorem processMonthEntries_true_len (year : String) :
    ∀ (raws : List RawEntry) (es : List Entry),
      processMonthEntries true year raws = some es → es.length = raws.length := by
  intro raws
  induction raws with
  | nil =>
    intro es h
    simp only [processMonthEntries, Option.some_inj] at h
    rw [← h]
    rfl
  | cons r rest ih =>
    intro es h
    have hd2 : ((extract_meta r.contentMd).draft && !true) = false := by simp
    cases hdate : parseDateYmd r.date with
    | none =>
      rw [pme_cons_bad hd2 hdate year rest] at h
      exact absurd h (by simp)
    | some ymd =>
      obtain ⟨y, mo, dd⟩ := ymd
      rw [pme_cons_keep hd2 hdate year rest] at h
      cases hrest : processMonthEntries true year rest with
      | none =>
        rw [hrest] at h
        exact absurd h (by simp)
      | some es2 =>
        rw [hrest] at h
        simp only [Option.map_some', Option.some_inj] at h
        rw [← h]
        simp [ih es2 hrest]

/-- With drafts excluded, a whole year directory produces only non-draft
entries. -/
theorem collectYearEntries_draft_free (year : String) :
    ∀ (files : List String) (es : List Entry),
      collectYearEntries false year files = some es → ∀ e ∈ es, e.draft = false := by
  intro files
  induction files with
  | nil =>
    intro es h e he
    simp only [collectYearEntries, Option.some_inj] at h
    rw [← h] at he
    exact absurd he (List.not_mem_nil e)
  | cons f fs ih =>
    intro es h e he
    cases ha : processMonthEntries false year (parse_month_file f) with
    | none =>
      rw [show collectYearEntries false year (f :: fs) =
          (processMonthEntries false year (parse_month_file f)).bind (fun a =>
            (collectYearEntries false year fs).bind (fun b => some (a ++ b))) from rfl,
        ha] at h
      exact absurd h (by simp)
    | some a =>
      cases hb : collectYearEntries false year fs with
      | none =>
        rw [show collectYearEntries false year (f :: fs) =
            (processMonthEntries false year (parse_month_file f)).bind (fun a =>
              (collectYearEntries false year fs).bind (fun b => some (a ++ b))) from rfl,
          ha, hb] at h
        exact absurd h (by simp)
      | some b =>
        rw [show collectYearEntries false year (f :: fs) =
            (processMonthEntries false year (parse_month_file f)).bind (fun a =>
              (collectYearEntries false year fs).bind (fun b => some (a ++ b))) from rfl,
          ha, hb] at h
        simp only [Option.some_bind, Option.some_inj] at h
        rw [← h] at he
        rcases List.mem_append.1 he with h1 | h1
        · exact processMonthEntries_draft_free year (parse_month_file f) a ha e h1
        · exact ih b hb e h1

/-- Every entry of every year bucket comes from that year's raw entry list. -/
theorem bucket_draft_free (tree : List (String × List String)) (order : String)
    (yi : List (String × List Entry))
    (h : collect_entries_by_year tree order false = some yi) :
    ∀ p ∈ yi, ∀ e ∈ p.2, e.draft = false := by
  intro p hp e he
  obtain ⟨files, raw, _, hraw, hsort⟩ := collect_bucket_spec tree order false yi h p hp
  rw [hsort] at he
  rw [mem_pySortByKey] at he
  exact collectYearEntries_draft_free p.1 files raw hraw e he

/-- Entries in an `addTag` bucket come from the map or are the appended
entry. -/
theorem addTag_mem_entries : ∀ (m : List (String × TagData)) (slug tag : String)
    (e : Entry) (s : String) (d : TagData), (s, d) ∈ addTag m slug tag e →
    ∀ x ∈ d.entries, (∃ d0, (s, d0) ∈ m ∧ x ∈ d0.entries) ∨ x = e := by
  intro m
  induction m with
  | nil =>
    intro slug tag e s d h x hx
    simp only [addTag, List.mem_singleton] at h
    rw [Prod.mk.injEq] at h
    rw [h.2] at hx
    simp only [List.mem_singleton] at hx
    exact Or.inr hx
  | cons hd0 rest ih =>
    obtain ⟨s0, d0⟩ := hd0
    intro slug tag e s d h x hx
    unfold addTag at h
    by_cases hs0 : s0 = slug
    · rw [if_pos hs0] at h
      rcases List.mem_cons.1 h with h1 | h1
      · rw [Prod.mk.injEq] at h1
        rw [h1.2] at hx
        rcases List.mem_append.1 hx with h2 | h2
        · exact Or.inl ⟨d0, by rw [h1.1]; exact List.mem_cons_self _ _, h2⟩
        · simp only [List.mem_singleton] at h2
          exact Or.inr h2
      · exact Or.inl ⟨d, List.mem_cons_of_mem _ h1, hx⟩
    · rw [if_neg hs0] at h
      rcases List.mem_cons.1 h with h1 | h1
      · rw [Prod.mk.injEq] at h1
        exact Or.inl ⟨d0, by rw [h1.1]; exact List.mem_cons_self _ _, by rw [← h1.2]; exact hx⟩
      · rcases ih slug tag e s d h1 x hx with h2 | h2
        · obtain ⟨dd, hdd, hex⟩ := h2
          exact Or.inl ⟨dd, List.mem_cons_of_mem _ hdd, hex⟩
        · exact Or.inr h2

/-- Entries in the folded tag map come from the seed map or from the
occurrence list. -/
theorem rawTagMap_fold_entries : ∀ (occs : List (String × Entry))
    (m : List (String × TagData)) (q : String × TagData),
    q ∈ occs.foldl (fun m te => addTag m (slugify_tag te.1) te.1 te.2) m →
    ∀ x ∈ q.2.entries,
      (∃ d0, (q.1, d0) ∈ m ∧ x ∈ d0.entries) ∨ ∃ t, (t, x) ∈ occs := by
  intro occs
  induction occs with
  | nil =>
    intro m q h x hx
    simp only [List.foldl_nil] at h
    exact Or.inl ⟨q.2, by rw [Prod.mk.eta]; exact h, hx⟩
  | cons te rest ih =>
    intro m q h x hx
    simp only [List.foldl_cons] at h
    rcases ih (addTag m (slugify_tag te.1) te.1 te.2) q h x hx with h1 | h1
    · obtain ⟨d0, hd0, hx0⟩ := h1
      rcases addTag_mem_entries m (slugify_tag te.1) te.1 te.2 q.1 d0 hd0 x hx0 with h2 | h2
      · obtain ⟨d1, hd1, hx1⟩ := h2
        exact Or.inl ⟨d1, hd1, hx1⟩
      · exact Or.inr ⟨te.1, by rw [h2, Prod.mk.eta]; exact List.mem_cons_self _ _⟩
    · obtain ⟨t, ht⟩ := h1
      exact Or.inr ⟨t, List.mem_cons_of_mem _ ht⟩

/-- Tag occurrences come from the year buckets. -/
theorem mem_tagOccurrences {yi : List (String × List Entry)} {t : String} {e : Entry}
    (h : (t, e) ∈ tagOccurrences yi) : ∃ p, p ∈ yi ∧ e ∈ p.2 := by
  unfold tagOccurrences at h
  rw [List.mem_flatten] at h
  obtain ⟨l, hl, hmem⟩ := h
  rw [List.mem_map] at hl
  obtain ⟨p, hp, hpl⟩ := hl
  rw [← hpl] at hmem
  rw [List.mem_flatten] at hmem
  obtain ⟨l2, hl2, hmem2⟩ := hmem
  rw [List.mem_map] at hl2
  obtain ⟨e2, he2, hel2⟩ := hl2
  rw [← hel2] at hmem2
  rw [List.mem_map] at hmem2
  obtain ⟨t2, _, hte⟩ := hmem2
  rw [Prod.mk.injEq] at hte
  refine ⟨p, hp, ?_⟩
  rw [← hte.2]
  exact he2

/-- Every entry of every tag bucket comes from some year bucket. -/
theorem tag_entries_from_buckets (yi : List (String × List Entry)) :
    ∀ q ∈ build_tag_index yi, ∀ e ∈ q.2.entries, ∃ p, p ∈ yi ∧ e ∈ p.2 := by
  intro q hq e he
  unfold build_tag_index at hq
  rw [List.mem_map] at hq
  obtain ⟨r, hr, hrq⟩ := hq
  have he2 : e ∈ r.2.entries := by
    rw [← hrq] at he
    rw [mem_pySortByKey] at he
    exact he
  rcases rawTagMap_fold_entries (tagOccurrences yi) [] r hr e he2 with h1 | h1
  · obtain ⟨d0, hd0, _⟩ := h1
    exact absurd hd0 (List.not_mem_nil _)
  · obtain ⟨t, ht⟩ := h1
    exact mem_tagOccurrences ht

/-- Calendar matches come from the year buckets. -/
theorem onThisDayMatches_from_buckets {yi : List (String × List Entry)} {mm dd : Nat}
    {e : Entry} (h : e ∈ onThisDayMatches yi mm dd) : ∃ p, p ∈ yi ∧ e ∈ p.2 := by
  unfold onThisDayMatches at h
  rw [mem_pySortByKey] at h
  rw [List.mem_flatten] at h
  obtain ⟨l, hl, hel⟩ := h
  rw [List.mem_map] at hl
  obtain ⟨p, hp, hpl⟩ := hl
  rw [← hpl] at hel
  exact ⟨p, hp, (List.mem_filter.1 hel).1⟩

/-- A successful association lookup is a membership. -/
theorem assocLookup_mem {y : String} : ∀ {yi : List (String × List Entry)}
    {es : List Entry}, assocLookup y yi = some es → (y, es) ∈ yi := by
  intro yi
  induction yi with
  | nil => intro es h; simp [assocLookup] at h
  | cons p rest ih =>
    obtain ⟨s, l⟩ := p
    intro es h
    unfold assocLookup at h
    by_cases hs : s = y
    · rw [if_pos hs] at h
      simp only [Option.some_inj] at h
      rw [hs, h]
      exact List.mem_cons_self _ _
    · rw [if_neg hs] at h
      exact List.mem_cons_of_mem _ (ih h)

/-- Feed entries come from a year bucket (the latest year's). -/
theorem feedEntries_from_buckets {yi : List (String × List Entry)} {e : Entry}
    (h : e ∈ feedEntries yi) : ∃ p, p ∈ yi ∧ e ∈ p.2 := by
  unfold feedEntries at h
  cases hl : latestYearOf yi with
  | none =>
    rw [hl] at h
    exact absurd h (List.not_mem_nil e)
  | some y =>
    rw [hl] at h
    have h2 : e ∈ (assocLookup y yi).getD [] := h
    cases ha : assocLookup y yi with
    | none =>
      rw [ha] at h2
      exact absurd h2 (List.not_mem_nil e)
    | some es =>
      rw [ha] at h2
      exact ⟨(y, es), assocLookup_mem ha, h2⟩

/-- Search documents come from the year buckets. -/
theorem searchDoc_from_buckets {siteUrl : String} {mdText : String → String}
    {yi : List (String × List Entry)} {doc : SearchDoc}
    (h : doc ∈ build_search_index siteUrl mdText yi) :
    ∃ p e, p ∈ yi ∧ e ∈ p.2 ∧ doc = mkSearchDoc siteUrl mdText p.1 e := by
  unfold build_search_index at h
  rw [List.mem_flatten] at h
  obtain ⟨l, hl, hdl⟩ := h
  rw [List.mem_map] at hl
  obtain ⟨p, hp, hpl⟩ := hl
  rw [← hpl] at hdl
  rw [List.mem_map] at hdl
  obtain ⟨e, he, hde⟩ := hdl
  exact ⟨p, e, hp, he, hde.symm⟩

/-- Mapping distributes over flattening. -/
theorem map_flatten_eq {α β : Type} (f : α → β) :
    ∀ l : List (List α), (l.flatten).map f = (l.map (fun x => x.map f)).flatten := by
  intro l
  induction l with
  | nil => rfl
  | cons x xs ih => simp [ih]

/-- Filtering a mapped list filters the preimages. -/
theorem filter_map_comm {α β : Type} (f : α → β) (p : β → Bool) :
    ∀ l : List α, (l.map f).filter p = (l.filter (fun a => p (f a))).map f := by
  intro l
  induction l with
  | nil => rfl
  | cons x xs ih =>
    simp only [List.map_cons, List.filter_cons]
    by_cases hp : p (f x) = true
    · rw [if_pos hp, if_pos hp, List.map_cons, ih]
    · rw [if_neg hp, if_neg hp, ih]

/-- `addTag` commutes with clearing draft flags. -/
theorem addTag_strip : ∀ (m : List (String × TagData)) (slug tag : String) (e : Entry),
    addTag (stripTagIndex m) slug tag (stripDraft e) = stripTagIndex (addTag m slug tag e) := by
  intro m
  induction m with
  | nil => intro slug tag e; rfl
  | cons hd0 rest ih =>
    obtain ⟨s0, d0⟩ := hd0
    intro slug tag e
    show addTag ((s0, ⟨d0.name, d0.entries.map stripDraft⟩) :: stripTagIndex rest) slug tag (stripDraft e) = _
    unfold addTag
    by_cases hs0 : s0 = slug
    · rw [if_pos hs0, if_pos hs0]
      show _ = stripTagIndex ((s0, ⟨d0.name, d0.entries ++ [e]⟩) :: rest)
      unfold stripTagIndex
      simp
    · rw [if_neg hs0, if_neg hs0]
      show _ = stripTagIndex ((s0, d0) :: addTag rest slug tag e)
      unfold stripTagIndex at ih ⊢
      simp only [List.map_cons]
      rw [ih slug tag e]

/-- Tag occurrences of the draft-cleared index are the draft-cleared
occurrences. -/
theorem tagOccurrences_strip (yi : List (String × List Entry)) :
    tagOccurrences (stripDraftYI yi) =
      (tagOccurrences yi).map (fun te => (te.1, stripDraft te.2)) := by
  unfold tagOccurrences stripDraftYI
  rw [map_flatten_eq, List.map_map, List.map_map]
  apply congrArg List.flatten
  apply List.map_congr_left
  intro p _
  show ((p.2.map stripDraft).map (fun e => e.tags.map (fun t => (t, e)))).flatten =
    ((p.2.map (fun e => e.tags.map (fun t => (t, e)))).flatten).map
      (fun te => (te.1, stripDraft te.2))
  rw [map_flatten_eq, List.map_map, List.map_map]
  apply congrArg List.flatten
  apply List.map_congr_left
  intro e _
  show (stripDraft e).tags.map (fun t => (t, stripDraft e)) =
    (e.tags.map (fun t => (t, e))).map (fun te => (te.1, stripDraft te.2))
  rw [List.map_map]
  rfl

/-- The tag-map fold commutes with clearing draft flags. -/
theorem foldl_addTag_strip : ∀ (occs : List (String × Entry)) (m : List (String × TagData)),
    ((occs.map (fun te => (te.1, stripDraft te.2))).foldl
        (fun m te => addTag m (slugify_tag te.1) te.1 te.2) (stripTagIndex m)) =
      stripTagIndex (occs.foldl (fun m te => addTag m (slugify_tag te.1) te.1 te.2) m) := by
  intro occs
  induction occs with
  | nil => intro m; rfl
  | cons te rest ih =>
    intro m
    simp only [List.map_cons, List.foldl_cons]
    rw [show addTag (stripTagIndex m) (slugify_tag (te.1, stripDraft te.2).1)
        (te.1, stripDraft te.2).1 (te.1, stripDraft te.2).2 =
        addTag (stripTagIndex m) (slugify_tag te.1) te.1 (stripDraft te.2) from rfl]
    rw [addTag_strip m (slugify_tag te.1) te.1 te.2]
    exact ih (addTag m (slugify_tag te.1) te.1 te.2)

/-- `build_tag_index` commutes with clearing draft flags. -/
theorem build_tag_index_strip (yi : List (String × List Entry)) :
    build_tag_index (stripDraftYI yi) = stripTagIndex (build_tag_index yi) := by
  unfold build_tag_index rawTagMap
  rw [tagOccurrences_strip]
  have hf : ((tagOccurrences yi).map (fun te => (te.1, stripDraft te.2))).foldl
      (fun m te => addTag m (slugify_tag te.1) te.1 te.2) [] =
      stripTagIndex ((tagOccurrences yi).foldl
        (fun m te => addTag m (slugify_tag te.1) te.1 te.2) []) :=
    foldl_addTag_strip (tagOccurrences yi) []
  rw [hf]
  unfold stripTagIndex
  rw [List.map_map, List.map_map]
  apply List.map_congr_left
  intro q _
  show (q.1, (⟨q.2.name, pySortByKey dtKey true (q.2.entries.map stripDraft)⟩ : TagData)) =
    (q.1, (⟨q.2.name, (pySortByKey dtKey true q.2.entries).map stripDraft⟩ : TagData))
  rw [pySortByKey_map dtKey true stripDraft (fun a => rfl)]

/-- The calendar matches commute with clearing draft flags. -/
theorem onThisDayMatches_strip (yi : List (String × List Entry)) (mm dd : Nat) :
    onThisDayMatches (stripDraftYI yi) mm dd = (onThisDayMatches yi mm dd).map stripDraft := by
  unfold onThisDayMatches stripDraftYI
  rw [List.map_map]
  rw [← pySortByKey_map dtKey true stripDraft (fun a => rfl)]
  apply congrArg (pySortByKey dtKey true)
  rw [map_flatten_eq stripDraft]
  rw [List.map_map]
  apply congrArg List.flatten
  apply List.map_congr_left
  intro p _
  show ((p.2.map stripDraft).filter (fun e => e.dtM == mm && e.dtD == dd)) =
    ((p.2.filter (fun e => e.dtM == mm && e.dtD == dd)).map stripDraft)
  rw [filter_map_comm]
  rfl

/-- The search index is unchanged by clearing draft flags. -/
theorem build_search_index_strip (siteUrl : String) (mdText : String → String)
    (yi : List (String × List Entry)) :
    build_search_index siteUrl mdText (stripDraftYI yi) =
      build_search_index siteUrl mdText yi := by
  unfold build_search_index stripDraftYI
  rw [List.map_map]
  apply congrArg List.flatten
  apply List.map_congr_left
  intro p _
  show ((p.2.map stripDraft).map (mkSearchDoc siteUrl mdText p.1)) =
    p.2.map (mkSearchDoc siteUrl mdText p.1)
  rw [List.map_map]
  rfl

/-- Lookups commute with clearing draft flags. -/
theorem assocLookup_strip (y : String) : ∀ yi : List (String × List Entry),
    assocLookup y (stripDraftYI yi) = (assocLookup y yi).map (fun es => es.map stripDraft) := by
  intro yi
  induction yi with
  | nil => rfl
  | cons p rest ih =>
    obtain ⟨s, l⟩ := p
    show assocLookup y ((s, l.map stripDraft) :: stripDraftYI rest) = _
    unfold assocLookup
    by_cases hs : s = y
    · rw [if_pos hs, if_pos hs]
      rfl
    · rw [if_neg hs, if_neg hs]
      exact ih

/-- The feed's entry list commutes with clearing draft flags. -/
theorem feedEntries_strip (yi : List (String × List Entry)) :
    feedEntries (stripDraftYI yi) = (feedEntries yi).map stripDraft := by
  unfold feedEntries
  have hkeys : latestYearOf (stripDraftYI yi) = latestYearOf yi := by
    unfold latestYearOf stripDraftYI
    rw [List.map_map]
    rfl
  rw [hkeys]
  cases hl : latestYearOf yi with
  | none => rfl
  | some y =>
    show (assocLookup y (stripDraftYI yi)).getD [] =
      ((assocLookup y yi).getD []).map stripDraft
    rw [assocLookup_strip y yi]
    cases ha : assocLookup y yi with
    | none => rfl
    | some es => rfl

/-- C3: with drafts excluded, a draft entry appears in no artifact of the
build — no year bucket, no tag bucket, no calendar match, no feed item, and
no search document (every document stems from a non-draft bucket entry);
with drafts included, nothing is filtered (one collected entry per parsed
record), and every downstream artifact builder is blind to the draft flag,
so a draft entry appears exactly where a non-draft entry with the same date,
year and tags would. -/
theorem draft_filtering (tree : List (String × List String)) (order : String)
    (siteUrl : String) (mdText : String → String) :
    (∀ yi, collect_entries_by_year tree order false = some yi →
      (∀ p ∈ yi, ∀ e ∈ p.2, e.draft = false) ∧
      (∀ q ∈ build_tag_index yi, ∀ e ∈ q.2.entries, e.draft = false) ∧
      (∀ mm dd : Nat, ∀ e ∈ onThisDayMatches yi mm dd, e.draft = false) ∧
      (∀ e ∈ feedEntries yi, e.draft = false) ∧
      (∀ doc ∈ build_search_index siteUrl mdText yi,
        ∃ p e, p ∈ yi ∧ e ∈ p.2 ∧ e.draft = false ∧
          doc = mkSearchDoc siteUrl mdText p.1 e)) ∧
    (∀ (year : String) (raws : List RawEntry) (es : List Entry),
      processMonthEntries true year raws = some es → es.length = raws.length) ∧
    (∀ yi, build_tag_index (stripDraftYI yi) = stripTagIndex (build_tag_index yi)) ∧
    (∀ yi (mm dd : Nat),
      onThisDayMatches (stripDraftYI yi) mm dd = (onThisDayMatches yi mm dd).map stripDraft) ∧
    (∀ yi, build_search_index siteUrl mdText (stripDraftYI yi) =
      build_search_index siteUrl mdText yi) ∧
    (∀ yi, feedEntries (stripDraftYI yi) = (feedEntries yi).map stripDraft) := by
  refine ⟨?_, processMonthEntries_true_len, build_tag_index_strip,
    onThisDayMatches_strip, build_search_index_strip siteUrl mdText, feedEntries_strip⟩
  intro yi hcol
  have hbucket := bucket_draft_free tree order yi hcol
  refine ⟨hbucket, ?_, ?_, ?_, ?_⟩
  · intro q hq e he
    obtain ⟨p, hp, hep⟩ := tag_entries_from_buckets yi q hq e he
    exact hbucket p hp e hep
  · intro mm dd e he
    obtain ⟨p, hp, hep⟩ := onThisDayMatches_from_buckets he
    exact hbucket p hp e hep
  · intro e he
    obtain ⟨p, hp, hep⟩ := feedEntries_from_buckets he
    exact hbucket p hp e hep
  · intro doc hdoc
    obtain ⟨p, e, hp, hep, hde⟩ := searchDoc_from_buckets hdoc
    exact ⟨p, e, hp, hep, hbucket p hp e hep, hde⟩

/-- Witness for C3 at a concrete tree containing a draft entry: the draft is
absent from the collected index. -/
theorem draft_filtering_witness :
    collect_entries_by_year
        [("2024", ["## 2024-01-02\ntags: hiking\nHello world.\n\n## 2024-01-15\ndraft: true\nSecret."])]
        "reverse" false =
      some [("2024", [⟨"2024-01-02", 2, "Hello world.", ["hiking"], false, "2024", 2024, 1, 2⟩])] ∧
    (∀ p ∈ [("2024", [(⟨"2024-01-02", 2, "Hello world.", ["hiking"], false, "2024", 2024, 1, 2⟩ : Entry)])],
      ∀ e ∈ p.2, e.draft = false) := by
  have hcol : collect_entries_by_year
      [("2024", ["## 2024-01-02\ntags: hiking\nHello world.\n\n## 2024-01-15\ndraft: true\nSecret."])]
      "reverse" false =
      some [("2024", [⟨"2024-01-02", 2, "Hello world.", ["hiking"], false, "2024", 2024, 1, 2⟩])] := by
    decide
  exact ⟨hcol,
    ((draft_filtering
        [("2024", ["## 2024-01-02\ntags: hiking\nHello world.\n\n## 2024-01-15\ndraft: true\nSecret."])]
        "reverse" "" (fun s => s)).1 _ hcol).1⟩

/-! ### C8: fatal exits of the build -/

/-- C8: a missing configuration aborts with status 1 and the config-not-found
diagnostic regardless of the content tree; with a loadable configuration, an
empty collected corpus aborts with status 1 and the distinct no-entries
diagnostic; the two messages differ for every config path, and since the
empty-corpus check runs only after configuration loading, a missing config
never reports the empty-corpus message. -/
theorem exit_behavior (configPath : String) (tree : List (String × List String))
    (order : String) (incl : Bool) :
    buildPrelude false configPath tree order incl =
      .error (.configNotFound configPath) ∧
    (collect_entries_by_year tree order incl = some [] →
      buildPrelude true configPath tree order incl = .error .emptyCorpus) ∧
    buildErrMsg (.configNotFound configPath) ≠ buildErrMsg .emptyCorpus ∧
    buildErrExit (.configNotFound configPath) ≠ 0 ∧
    buildErrExit .emptyCorpus ≠ 0 := by
  refine ⟨rfl, ?_, ?_, by simp [buildErrExit], by decide⟩
  · intro h
    unfold buildPrelude
    rw [h]
    rfl
  · intro heq
    have hlen := congrArg String.length heq
    rw [show buildErrMsg (BuildErr.configNotFound configPath) =
        "Config file not found: " ++ configPath from rfl] at hlen
    rw [String.length_append] at hlen
    have h1 : ("Config file not found: " : String).length = 23 := by decide
    have h2 : (buildErrMsg BuildErr.emptyCorpus).length = 17 := by decide
    rw [h1, h2] at hlen
    omega

/-- Witness for C8: the empty tree collects to an empty index, which aborts
with the empty-corpus diagnostic. -/
theorem exit_behavior_witness :
    collect_entries_by_year [] "reverse" false = some [] ∧
    buildPrelude true "config.yml" [] "reverse" false = .error .emptyCorpus :=
  ⟨by decide, (exit_behavior "config.yml" [] "reverse" false).2.1 (by decide)⟩

/-- Witness for C9: an input normalising to the empty string gets the
literal slug. -/
theorem slugify_tag_invariants_witness :
    slugCore "!!" = "" ∧ slugify_tag "!!" = "tag" :=
  ⟨by decide, (slugify_tag_invariants "!!").2.2.2.2.2 (by decide)⟩
